import Mathlib

/-!
# Verification of `src/tiled_attention.py`

Shallow embedding of the tiled matrix-multiplication kernel `tiled_matmul`
and the `TiledAttention` orchestrator module.  Tensors are modelled as
structures carrying their four (or three) extents together with a total
data function; entries outside the valid extents are unconstrained model
slack and every theorem restricts attention to in-range indices.
Floating-point scalars are modelled as exact scalars (`ℚ` for the kernel
theorems, `ℝ` for the orchestrator, whose softmax and scale use `exp` and
`sqrt`), so statements the specification phrases as "within tolerance" are
established as exact identities of the idealised arithmetic.  Fallible
steps (Python exceptions raised by `range`, `torch.matmul`, in-place
broadcast assignment, `Tensor.view`, float division) return `Except`.
-/

set_option maxHeartbeats 1000000

/-- Host-language (Python/torch) exceptions that the embedded code can raise,
together with the two error kinds named by the design document
(`shapeMismatch`, `invalidConfiguration`), which the code itself never
constructs. -/
inductive PyErr : Type
  /-- `ValueError: range() arg 3 must not be zero`. -/
  | rangeZeroStep
  /-- `RuntimeError` from `torch.matmul`: incompatible matrix or batch extents. -/
  | matmulShape
  /-- `RuntimeError` from an in-place `+=` whose right-hand side does not
  broadcast to the destination slice. -/
  | broadcastShape
  /-- `RuntimeError` from `Tensor.view`: element counts differ. -/
  | viewShape
  /-- `ZeroDivisionError`. -/
  | zeroDivision
  /-- Error kind from the design document's taxonomy; never raised by the code. -/
  | shapeMismatch
  /-- Error kind from the design document's taxonomy; never raised by the code. -/
  | invalidConfiguration
  deriving DecidableEq, Repr

/-- Python `range(0, stop, step)` for a natural `stop` and integer `step`
(the only form the source uses, lines 14-16): a zero step raises
`ValueError`, a negative step yields the empty range (since `0 ≤ stop`), and
a positive step yields `0, step, 2*step, ...` up to but excluding `stop`. -/
def pyRange0 (stop : ℕ) (step : ℤ) : Except PyErr (List ℕ) :=
  if 0 < step then
    .ok ((List.range ((stop + step.toNat - 1) / step.toNat)).map (fun q => q * step.toNat))
  else if step = 0 then .error .rangeZeroStep
  else .ok []

/-- A dense rank-4 tensor `(batch, head, row, col)`.  The data function is
total; only indices below the four extents are meaningful. -/
structure Tensor4 (α : Type) where
  b : ℕ
  h : ℕ
  n : ℕ
  m : ℕ
  data : ℕ → ℕ → ℕ → ℕ → α

/-- `torch.zeros((b, h, n, m))` (line 11). -/
def Tensor4.zeros {α : Type} [Zero α] (b h n m : ℕ) : Tensor4 α :=
  ⟨b, h, n, m, fun _ _ _ _ => 0⟩

/-- Python slicing `A[:, :, r0:r1, c0:c1]` on the last two axes: both bounds
are clipped to the axis extent (lines 18-19). -/
def Tensor4.slice34 {α : Type} (A : Tensor4 α) (r0 r1 c0 c1 : ℕ) : Tensor4 α :=
  { b := A.b, h := A.h,
    n := min r1 A.n - min r0 A.n,
    m := min c1 A.m - min c0 A.m,
    data := fun b h r c => A.data b h (min r0 A.n + r) (min c0 A.m + c) }

/-- Index adjustment for a broadcast axis: an axis of extent 1 is read at 0. -/
def bidx (size i : ℕ) : ℕ := if size = 1 then 0 else i

/-- Broadcast combination of two batch extents (torch semantics: equal, or
one of them is 1). -/
def bcDim (d e : ℕ) : Option ℕ :=
  if d = e then some d else if d = 1 then some e else if e = 1 then some d else none

/-- `torch.matmul` on rank-4 tensors (line 22): the two trailing axes are
multiplied, the leading two axes broadcast; incompatible extents raise. -/
def Tensor4.matmul {α : Type} [NonUnitalNonAssocSemiring α] (A B : Tensor4 α) :
    Except PyErr (Tensor4 α) :=
  match bcDim A.b B.b, bcDim A.h B.h with
  | some bb, some hh =>
    let prod : Tensor4 α :=
      { b := bb, h := hh, n := A.n, m := B.m,
        data := fun b h r c =>
          ∑ x in Finset.range A.m,
            A.data (bidx A.b b) (bidx A.h h) r x * B.data (bidx B.b b) (bidx B.h h) x c }
    if A.m = B.n then .ok prod else .error .matmulShape
  | _, _ => .error .matmulShape

/-- The in-place accumulation `C[:, :, i:i+t, j:j+t] += T` (line 22): `T`
must broadcast to the clipped destination region; entries of the region are
incremented, all others are untouched. -/
def addInto {α : Type} [Add α] (C : Tensor4 α) (i j t : ℕ) (T : Tensor4 α) :
    Except PyErr (Tensor4 α) :=
  let er := min (i + t) C.n - min i C.n
  let ec := min (j + t) C.m - min j C.m
  let upd : Tensor4 α :=
    { C with data := fun b h r c =>
        if min i C.n ≤ r ∧ r < min (i + t) C.n ∧ min j C.m ≤ c ∧ c < min (j + t) C.m then
          C.data b h r c +
            T.data (bidx T.b b) (bidx T.h h) (bidx T.n (r - min i C.n)) (bidx T.m (c - min j C.m))
        else C.data b h r c }
  if (T.b = C.b ∨ T.b = 1) ∧ (T.h = C.h ∨ T.h = 1) ∧
     (T.n = er ∨ T.n = 1) ∧ (T.m = ec ∨ T.m = 1) then
    .ok upd
  else .error .broadcastShape

/-- `tiled_matmul(A, B, tile_size)`, lines 6-24 of the source: allocate a
zero output, iterate row-tile `i`, column-tile `j` and reduction-tile `k`
with Python `range` stepping, slice the two operand tiles with clipping,
multiply them with `torch.matmul` and accumulate in place. -/
def tiled_matmul {α : Type} [NonUnitalNonAssocSemiring α] (A B : Tensor4 α)
    (tile_size : ℤ) : Except PyErr (Tensor4 α) := do
  let C0 : Tensor4 α := Tensor4.zeros A.b A.h A.n B.m
  let t := tile_size.toNat
  let iL ← pyRange0 A.n tile_size
  let jL ← pyRange0 B.m tile_size
  let kL ← pyRange0 A.m tile_size
  iL.foldlM (fun C i =>
    jL.foldlM (fun C j =>
      kL.foldlM (fun C k => do
        let T ← (A.slice34 i (i + t) k (k + t)).matmul (B.slice34 k (k + t) j (j + t))
        addInto C i j t T) C) C) C0

/-- The heap fragment visible to `tiled_matmul`: the two argument tensors
and the freshly allocated accumulator.  Each loop iteration reads the
operand components from the state and writes only the accumulator, which is
how the Python objects behave (`C[...] += ...` mutates `C` alone). -/
structure KernelState (α : Type) where
  A : Tensor4 α
  B : Tensor4 α
  C : Tensor4 α

/-- `tiled_matmul` with every tensor the body touches threaded through an
explicit state, used to express that the inputs are never written. -/
def tiled_matmulS {α : Type} [NonUnitalNonAssocSemiring α] (A B : Tensor4 α)
    (tile_size : ℤ) : Except PyErr (KernelState α) := do
  let s0 : KernelState α := ⟨A, B, Tensor4.zeros A.b A.h A.n B.m⟩
  let t := tile_size.toNat
  let iL ← pyRange0 A.n tile_size
  let jL ← pyRange0 B.m tile_size
  let kL ← pyRange0 A.m tile_size
  iL.foldlM (fun s i =>
    jL.foldlM (fun s j =>
      kL.foldlM (fun s k =>
        (((s.A.slice34 i (i + t) k (k + t)).matmul (s.B.slice34 k (k + t) j (j + t))) >>=
            addInto s.C i j t).map (fun C => ⟨s.A, s.B, C⟩)) s) s) s0

/-- A dense rank-3 tensor `(batch, seq, feature)`. -/
structure Tensor3 (α : Type) where
  b : ℕ
  n : ℕ
  m : ℕ
  data : ℕ → ℕ → ℕ → α

/-- An `nn.Linear(inF, outF)` layer: weight of shape `(outF, inF)` plus bias. -/
structure Linear where
  inF : ℕ
  outF : ℕ
  w : ℕ → ℕ → ℝ
  bias : ℕ → ℝ

/-- Applying a linear layer to the last axis of a rank-3 tensor:
`y[b,s,j] = Σ_i x[b,s,i] * w[j,i] + bias[j]`; a feature-extent mismatch
raises the underlying matmul shape error. -/
def Linear.apply3 (L : Linear) (x : Tensor3 ℝ) : Except PyErr (Tensor3 ℝ) :=
  let y : Tensor3 ℝ :=
    { b := x.b, n := x.n, m := L.outF,
      data := fun b s j => (∑ i in Finset.range L.inF, x.data b s i * L.w j i) + L.bias j }
  if x.m = L.inF then .ok y else .error .matmulShape

/-- `Tensor.view(d1, d2, d3, d4)` on a contiguous rank-3 tensor: requires
equal element counts and reinterprets the row-major flat order. -/
def view4 {α : Type} (x : Tensor3 α) (d1 d2 d3 d4 : ℕ) : Except PyErr (Tensor4 α) :=
  let y : Tensor4 α :=
    { b := d1, h := d2, n := d3, m := d4,
      data := fun i1 i2 i3 i4 =>
        x.data ((((i1 * d2 + i2) * d3 + i3) * d4 + i4) / (x.n * x.m))
          ((((i1 * d2 + i2) * d3 + i3) * d4 + i4) / x.m % x.n)
          ((((i1 * d2 + i2) * d3 + i3) * d4 + i4) % x.m) }
  if x.b * x.n * x.m = d1 * d2 * d3 * d4 then .ok y else .error .viewShape

/-- `Tensor.view(d1, d2, d3)` on a contiguous rank-4 tensor: requires equal
element counts and reinterprets the row-major flat order. -/
def view3 {α : Type} (t : Tensor4 α) (d1 d2 d3 : ℕ) : Except PyErr (Tensor3 α) :=
  let y : Tensor3 α :=
    { b := d1, n := d2, m := d3,
      data := fun i1 i2 i3 =>
        t.data (((i1 * d2 + i2) * d3 + i3) / (t.h * t.n * t.m))
          (((i1 * d2 + i2) * d3 + i3) / (t.n * t.m) % t.h)
          (((i1 * d2 + i2) * d3 + i3) / t.m % t.n)
          (((i1 * d2 + i2) * d3 + i3) % t.m) }
  if t.b * t.h * t.n * t.m = d1 * d2 * d3 then .ok y else .error .viewShape

/-- `Tensor.transpose(1, 2)` on a rank-4 tensor (lines 51-53 and 61). -/
def Tensor4.transpose12 {α : Type} (t : Tensor4 α) : Tensor4 α :=
  ⟨t.b, t.n, t.h, t.m, fun b h s d => t.data b s h d⟩

/-- `Tensor.transpose(-1, -2)` on a rank-4 tensor (line 56). -/
def Tensor4.transpose34 {α : Type} (t : Tensor4 α) : Tensor4 α :=
  ⟨t.b, t.h, t.m, t.n, fun b h r c => t.data b h c r⟩

/-- Scalar multiplication `t * a` (the `* self.scale` of line 56). -/
def Tensor4.smulR (t : Tensor4 ℝ) (a : ℝ) : Tensor4 ℝ :=
  { t with data := fun b h r c => t.data b h r c * a }

/-- `nn.Softmax(dim=-1)` (lines 39 and 57): each row of the last axis is
exponentiated and normalised by its sum. -/
noncomputable def softmax4 (S : Tensor4 ℝ) : Tensor4 ℝ :=
  { S with data := fun b h r c =>
      Real.exp (S.data b h r c) / ∑ x in Finset.range S.m, Real.exp (S.data b h r x) }

/-- The `TiledAttention` module state after construction (lines 28-40). -/
structure TiledAttention where
  hidden_size : ℕ
  num_attention_heads : ℕ
  tile_size : ℤ
  query : Linear
  key : Linear
  value : Linear
  out : Linear
  scale : ℝ

/-- `TiledAttention.__init__(hidden_size, num_attention_heads, tile_size)`:
stores the configuration, creates four square linear layers and the scale
`1.0 / (hidden_size // num_attention_heads) ** 0.5` (line 40).  The only
failing evaluation is the scale: Python raises `ZeroDivisionError` when
`num_attention_heads` is 0 (integer floor division by zero) or when the
floor quotient is 0 (float division by `0.0`); both are the
`hidden / heads = 0` case under Lean's `/`.  No divisibility check exists. -/
noncomputable def TiledAttention.construct (hidden heads : ℕ) (ts : ℤ)
    (wq : ℕ → ℕ → ℝ) (bq : ℕ → ℝ) (wk : ℕ → ℕ → ℝ) (bk : ℕ → ℝ)
    (wv : ℕ → ℕ → ℝ) (bv : ℕ → ℝ) (wo : ℕ → ℕ → ℝ) (bo : ℕ → ℝ) :
    Except PyErr TiledAttention :=
  if hidden / heads = 0 then .error .zeroDivision
  else .ok { hidden_size := hidden, num_attention_heads := heads, tile_size := ts,
             query := ⟨hidden, hidden, wq, bq⟩, key := ⟨hidden, hidden, wk, bk⟩,
             value := ⟨hidden, hidden, wv, bv⟩, out := ⟨hidden, hidden, wo, bo⟩,
             scale := 1 / Real.sqrt ((hidden / heads : ℕ) : ℝ) }

/-- Lines 43-53 of `TiledAttention.forward`: read `(batch, seq, hidden)`
from the input, apply the module's own query/key/value projections, reshape
each to `(batch, seq, heads, hidden // heads)` and transpose axes 1 and 2.
The head width divides the input's own `hidden_size` (line 51). -/
noncomputable def TiledAttention.forwardQKV (M : TiledAttention) (x : Tensor3 ℝ) :
    Except PyErr (Tensor4 ℝ × Tensor4 ℝ × Tensor4 ℝ) := do
  let hd := x.m / M.num_attention_heads
  let q ← M.query.apply3 x
  let k ← M.key.apply3 x
  let v ← M.value.apply3 x
  let q4 := Tensor4.transpose12 (← view4 q x.b x.n M.num_attention_heads hd)
  let k4 := Tensor4.transpose12 (← view4 k x.b x.n M.num_attention_heads hd)
  let v4 := Tensor4.transpose12 (← view4 v x.b x.n M.num_attention_heads hd)
  return (q4, k4, v4)

/-- Lines 56-57: `softmax(tiled_matmul(q, kᵀ, tile_size) * scale)`.  The
stage functions below re-run the pure prefix of the forward pass; the whole
computation is deterministic and effect-free, so this re-evaluation is
observationally identical to the single pass of the source. -/
noncomputable def TiledAttention.forwardWeights (M : TiledAttention) (x : Tensor3 ℝ) :
    Except PyErr (Tensor4 ℝ) := do
  let (q4, k4, _) ← M.forwardQKV x
  let s ← tiled_matmul q4 k4.transpose34 M.tile_size
  return softmax4 (s.smulR M.scale)

/-- Line 58: `tiled_matmul(attention_weights, v, tile_size)`. -/
noncomputable def TiledAttention.forwardContext (M : TiledAttention) (x : Tensor3 ℝ) :
    Except PyErr (Tensor4 ℝ) := do
  let (_, _, v4) ← M.forwardQKV x
  let w ← M.forwardWeights x
  tiled_matmul w v4 M.tile_size

/-- Line 61: `attention_output.transpose(1, 2).contiguous().view(batch,
seq, hidden)` (the `contiguous` call only affects layout, not values). -/
noncomputable def TiledAttention.forwardMerged (M : TiledAttention) (x : Tensor3 ℝ) :
    Except PyErr (Tensor3 ℝ) := do
  let ctx ← M.forwardContext x
  view3 ctx.transpose12 x.b x.n x.m

/-- Lines 42-66, the full forward pass: the head-merged context followed by
the module's own output projection `self.out` (line 64). -/
noncomputable def TiledAttention.forward (M : TiledAttention) (x : Tensor3 ℝ) :
    Except PyErr (Tensor3 ℝ) := do
  let mg ← M.forwardMerged x
  M.out.apply3 mg

/-! ## Helper layer: range and tile bookkeeping -/

/-- The list of tile start offsets `0, t, 2t, ...` strictly below `n` that
`range(0, n, t)` produces for a positive step `t`. -/
def tileStarts (n t : ℕ) : List ℕ :=
  (List.range ((n + t - 1) / t)).map (fun q => q * t)

/-- The value `torch.matmul(A_tile, B_tile)` takes in the matching-shape
case (where `A.b = B.b` and `A.h = B.h`, so both broadcast lookups read the
extents of `A`): the payload of `Tensor4.matmul` on the two clipped slices. -/
def tmMul {α : Type} [NonUnitalNonAssocSemiring α] (A B : Tensor4 α) (t i j k : ℕ) :
    Tensor4 α :=
  { b := A.b, h := A.h,
    n := (A.slice34 i (i + t) k (k + t)).n,
    m := (B.slice34 k (k + t) j (j + t)).m,
    data := fun bb hh rr cc =>
      ∑ x in Finset.range ((A.slice34 i (i + t) k (k + t)).m),
        (A.slice34 i (i + t) k (k + t)).data (bidx A.b bb) (bidx A.h hh) rr x *
        (B.slice34 k (k + t) j (j + t)).data (bidx A.b bb) (bidx A.h hh) x cc }

/-- The effect of one loop-body iteration on the accumulator in the
matching-shape case: the `addInto` update with the tile product. -/
def tmStep {α : Type} [NonUnitalNonAssocSemiring α] (A B : Tensor4 α) (t i j k : ℕ)
    (C : Tensor4 α) : Tensor4 α :=
  { C with data := fun b h r c =>
      if min i C.n ≤ r ∧ r < min (i + t) C.n ∧ min j C.m ≤ c ∧ c < min (j + t) C.m then
        C.data b h r c +
          (tmMul A B t i j k).data (bidx (tmMul A B t i j k).b b)
            (bidx (tmMul A B t i j k).h h)
            (bidx (tmMul A B t i j k).n (r - min i C.n))
            (bidx (tmMul A B t i j k).m (c - min j C.m))
      else C.data b h r c }

/-- The pure unfolding of the three tile loops in the matching-shape case. -/
def tmFold {α : Type} [NonUnitalNonAssocSemiring α] (A B : Tensor4 α) (t : ℕ) : Tensor4 α :=
  (tileStarts A.n t).foldl (fun C i =>
    (tileStarts B.m t).foldl (fun C j =>
      (tileStarts A.m t).foldl (fun C k => tmStep A B t i j k C) C) C)
    (Tensor4.zeros A.b A.h A.n B.m)

/-- Zero weight matrix used by the concrete witnesses. -/
def zw : ℕ → ℕ → ℝ := fun _ _ => 0

/-- Zero bias vector used by the concrete witnesses. -/
def zb : ℕ → ℝ := fun _ => 0

/-- The module `TiledAttention(hidden_size=2, num_attention_heads=1,
tile_size=1)` with all-zero projection weights, as built by the
constructor. -/
noncomputable def demoModule : TiledAttention :=
  { hidden_size := 2, num_attention_heads := 1, tile_size := 1,
    query := ⟨2, 2, zw, zb⟩, key := ⟨2, 2, zw, zb⟩,
    value := ⟨2, 2, zw, zb⟩, out := ⟨2, 2, zw, zb⟩,
    scale := 1 / Real.sqrt ((2 / 1 : ℕ) : ℝ) }

/-- A `(1, 1, 2)` all-zero input for `demoModule`. -/
def demoInput : Tensor3 ℝ := ⟨1, 1, 2, fun _ _ _ => 0⟩

/-- The module `TiledAttention(hidden_size=10, num_attention_heads=3,
tile_size=2)` — the design document's invalid configuration — as the
constructor actually builds it (no divisibility check fires). -/
noncomputable def badModule : TiledAttention :=
  { hidden_size := 10, num_attention_heads := 3, tile_size := 2,
    query := ⟨10, 10, zw, zb⟩, key := ⟨10, 10, zw, zb⟩,
    value := ⟨10, 10, zw, zb⟩, out := ⟨10, 10, zw, zb⟩,
    scale := 1 / Real.sqrt ((10 / 3 : ℕ) : ℝ) }

/-- A `(1, 1, 10)` all-zero input for `badModule`. -/
def badInput : Tensor3 ℝ := ⟨1, 1, 10, fun _ _ _ => 0⟩

/-- A weight matrix of ones. -/
def onesW : ℕ → ℕ → ℝ := fun _ _ => 1

/-- A weight matrix of twos, used as a non-identity output projection. -/
def twosW : ℕ → ℕ → ℝ := fun _ _ => 2

/-- The module `TiledAttention(hidden_size=1, num_attention_heads=1,
tile_size=1)` whose q/k/v projections are the 1x1 identity (weight 1, bias
0) and whose output projection doubles its input (weight 2, bias 0). -/
noncomputable def cexModule : TiledAttention :=
  { hidden_size := 1, num_attention_heads := 1, tile_size := 1,
    query := ⟨1, 1, onesW, zb⟩, key := ⟨1, 1, onesW, zb⟩,
    value := ⟨1, 1, onesW, zb⟩, out := ⟨1, 1, twosW, zb⟩,
    scale := 1 / Real.sqrt ((1 / 1 : ℕ) : ℝ) }

/-- The `(1, 1, 1)` all-ones input for `cexModule`. -/
def cexInput : Tensor3 ℝ := ⟨1, 1, 1, fun _ _ _ => 1⟩

theorem pyRange0_pos {step : ℤ} (h : 0 < step) (stop : ℕ) :
    pyRange0 stop step = .ok (tileStarts stop step.toNat) := by
  simp [pyRange0, h, tileStarts]

theorem pyRange0_zero (stop : ℕ) : pyRange0 stop 0 = .error .rangeZeroStep := by
  simp [pyRange0]

theorem pyRange0_neg {step : ℤ} (h : step < 0) (stop : ℕ) :
    pyRange0 stop step = .ok [] := by
  have h1 : ¬ (0 < step) := by omega
  have h2 : ¬ (step = 0) := by omega
  simp [pyRange0, h1, h2]

theorem tileStarts_count {t : ℕ} (ht : 0 < t) (n q : ℕ) :
    q < (n + t - 1) / t ↔ q * t < n := by
  rw [Nat.lt_iff_add_one_le, Nat.le_div_iff_mul_le ht, add_one_mul]
  have := Nat.mul_le_mul_right t (Nat.zero_le q)
  generalize q * t = a
  omega

theorem mem_tileStarts {t : ℕ} (ht : 0 < t) {n x : ℕ} :
    x ∈ tileStarts n t ↔ ∃ q, x = q * t ∧ x < n := by
  simp only [tileStarts, List.mem_map, List.mem_range]
  constructor
  · rintro ⟨q, hq, rfl⟩
    exact ⟨q, rfl, (tileStarts_count ht n q).1 hq⟩
  · rintro ⟨q, rfl, hlt⟩
    exact ⟨q, (tileStarts_count ht n q).2 hlt, rfl⟩

theorem tileStarts_nodup {t : ℕ} (ht : 0 < t) (n : ℕ) : (tileStarts n t).Nodup :=
  (List.nodup_range _).map fun a b hab =>
    Nat.eq_of_mul_eq_mul_right ht hab

theorem tileStarts_cover {t : ℕ} (ht : 0 < t) {n r : ℕ} (hr : r < n) :
    r / t * t ∈ tileStarts n t ∧ r / t * t ≤ r ∧ r < r / t * t + t := by
  refine ⟨(mem_tileStarts ht).2 ⟨r / t, rfl, ?_⟩, Nat.div_mul_le_self r t, Nat.lt_div_mul_add ht⟩
  exact lt_of_le_of_lt (Nat.div_mul_le_self r t) hr

theorem tileStarts_uniq {t : ℕ} (ht : 0 < t) {n x y r : ℕ}
    (hx : x ∈ tileStarts n t) (hy : y ∈ tileStarts n t)
    (hx1 : x ≤ r) (hx2 : r < x + t) (hy1 : y ≤ r) (hy2 : r < y + t) : x = y := by
  obtain ⟨qx, rfl, -⟩ := (mem_tileStarts ht).1 hx
  obtain ⟨qy, rfl, -⟩ := (mem_tileStarts ht).1 hy
  have ex : r / t = qx := Nat.div_eq_of_lt_le hx1 (by simpa [Nat.succ_mul] using hx2)
  have ey : r / t = qy := Nat.div_eq_of_lt_le hy1 (by simpa [Nat.succ_mul] using hy2)
  rw [← ex, ← ey]

theorem tileStarts_zero (t : ℕ) : tileStarts 0 t = [] := by
  have hd : (t - 1) / t = 0 := by
    rcases Nat.eq_zero_or_pos t with rfl | ht
    · simp
    · exact Nat.div_eq_of_lt (by omega)
  simp [tileStarts, hd]

theorem tileStarts_decomp {t n : ℕ} (ht : 0 < t) (hn : 0 < n) :
    tileStarts n t = 0 :: (tileStarts (n - t) t).map (fun x => t + x) := by
  have hcnt : (n + t - 1) / t = (n - t + t - 1) / t + 1 := by
    rcases le_or_lt n t with h | h
    · have h0 : n - t = 0 := by omega
      have h1 : (n + t - 1) / t = 1 :=
        Nat.div_eq_of_lt_le (by omega) (by omega)
      have h2 : (0 + t - 1) / t = 0 := Nat.div_eq_of_lt (by omega)
      rw [h1, h0, h2]
    · have heq : n + t - 1 = (n - t + t - 1) + t := by omega
      rw [heq, Nat.add_div_right _ ht]
  have hfun : ((fun q : ℕ => q * t) ∘ Nat.succ) = ((fun x => t + x) ∘ fun q : ℕ => q * t) := by
    funext q
    simp [Function.comp, Nat.succ_mul, Nat.add_comm]
  rw [tileStarts, tileStarts, hcnt, List.range_succ_eq_map, List.map_cons, List.map_map,
    List.map_map, hfun, Nat.zero_mul]

theorem bidx_of_lt {s i : ℕ} (h : i < s) : bidx s i = i := by
  unfold bidx
  split
  · omega
  · rfl

theorem bcDim_self (d : ℕ) : bcDim d d = some d := by simp [bcDim]

theorem tileSum_eq {α : Type} [AddCommMonoid α] {t : ℕ} (ht : 0 < t) :
    ∀ (m : ℕ) (f : ℕ → α),
      ((tileStarts m t).map (fun k0 => ∑ x in Finset.Ico k0 (min (k0 + t) m), f x)).sum
        = ∑ x in Finset.range m, f x := by
  intro m
  induction m using Nat.strong_induction_on with
  | _ m ih =>
    intro f
    rcases Nat.eq_zero_or_pos m with rfl | hm
    · simp [tileStarts_zero]
    · rw [tileStarts_decomp ht hm, List.map_cons, List.sum_cons, List.map_map]
      rcases le_or_lt m t with hmt | htm
      · have h0 : m - t = 0 := by omega
        have h1 : min (0 + t) m = m := by omega
        rw [h0, tileStarts_zero, List.map_nil, List.sum_nil, add_zero, h1,
          Nat.Ico_zero_eq_range]
      · have hfirst : min (0 + t) m = t := by omega
        have hcomp : ((fun k0 => ∑ x in Finset.Ico k0 (min (k0 + t) m), f x) ∘ fun x => t + x)
            = fun k0 => ∑ x in Finset.Ico k0 (min (k0 + t) (m - t)), f (t + x) := by
          funext k0
          have hmin : min (t + k0 + t) m = min (k0 + t) (m - t) + t := by omega
          have hc : t + k0 = k0 + t := Nat.add_comm t k0
          rw [Function.comp_apply, hmin, hc, ← Finset.sum_Ico_add]
        rw [hfirst, hcomp, ih (m - t) (by omega) (fun x => f (t + x)),
          Nat.Ico_zero_eq_range]
        rw [show m = t + (m - t) by omega, Finset.sum_range_add, Nat.add_sub_cancel_left]

theorem except_ok_bind {ε σ τ : Type} (a : σ) (f : σ → Except ε τ) :
    (Except.ok a >>= f) = f a := rfl

theorem foldlM_ok {σ ι : Type} (P : σ → Prop) (f : σ → ι → Except PyErr σ)
    (g : σ → ι → σ) (hfg : ∀ s x, P s → f s x = .ok (g s x))
    (hPg : ∀ s x, P s → P (g s x)) :
    ∀ (l : List ι) (s : σ), P s → l.foldlM f s = .ok (l.foldl g s) ∧ P (l.foldl g s)
  | [], s, hs => ⟨rfl, hs⟩
  | x :: l, s, hs => by
    rw [List.foldlM_cons, hfg s x hs, except_ok_bind, List.foldl_cons]
    exact foldlM_ok P f g hfg hPg l (g s x) (hPg s x hs)

theorem body_ok {α : Type} [NonUnitalNonAssocSemiring α] {A B C : Tensor4 α}
    (hb : A.b = B.b) (hh : A.h = B.h) (hm : A.m = B.n)
    (hCb : C.b = A.b) (hCh : C.h = A.h) (hCn : C.n = A.n) (hCm : C.m = B.m)
    (t i j k : ℕ) :
    ((A.slice34 i (i + t) k (k + t)).matmul (B.slice34 k (k + t) j (j + t)) >>=
        addInto C i j t) = .ok (tmStep A B t i j k C) := by
  have hmm : (A.slice34 i (i + t) k (k + t)).matmul (B.slice34 k (k + t) j (j + t))
      = .ok (tmMul A B t i j k) := by
    have hsb : (B.slice34 k (k + t) j (j + t)).b = A.b := hb.symm
    have hsh : (B.slice34 k (k + t) j (j + t)).h = A.h := hh.symm
    have hsn : (B.slice34 k (k + t) j (j + t)).n
        = min (k + t) A.m - min k A.m := by
      show min (k + t) B.n - min k B.n = _
      rw [← hm]
    unfold Tensor4.matmul
    rw [show (A.slice34 i (i + t) k (k + t)).b = A.b from rfl, hsb, bcDim_self,
      show (A.slice34 i (i + t) k (k + t)).h = A.h from rfl, hsh, bcDim_self]
    have hcond : (A.slice34 i (i + t) k (k + t)).m = (B.slice34 k (k + t) j (j + t)).n := by
      rw [hsn]; rfl
    dsimp only
    rw [if_pos hcond]
    rfl
  rw [hmm, except_ok_bind]
  have hguard : ((tmMul A B t i j k).b = C.b ∨ (tmMul A B t i j k).b = 1) ∧
      ((tmMul A B t i j k).h = C.h ∨ (tmMul A B t i j k).h = 1) ∧
      ((tmMul A B t i j k).n = min (i + t) C.n - min i C.n ∨ (tmMul A B t i j k).n = 1) ∧
      ((tmMul A B t i j k).m = min (j + t) C.m - min j C.m ∨ (tmMul A B t i j k).m = 1) := by
    refine ⟨Or.inl hCb.symm, Or.inl hCh.symm, Or.inl ?_, Or.inl ?_⟩
    · show (A.slice34 i (i + t) k (k + t)).n = _
      rw [hCn]; rfl
    · show (B.slice34 k (k + t) j (j + t)).m = _
      rw [hCm]; rfl
  unfold addInto
  rw [if_pos hguard]
  rfl

theorem tmStep_dims {α : Type} [NonUnitalNonAssocSemiring α] (A B : Tensor4 α)
    (t i j k : ℕ) (C : Tensor4 α) :
    (tmStep A B t i j k C).b = C.b ∧ (tmStep A B t i j k C).h = C.h ∧
    (tmStep A B t i j k C).n = C.n ∧ (tmStep A B t i j k C).m = C.m :=
  ⟨rfl, rfl, rfl, rfl⟩

theorem tmStep_data {α : Type} [NonUnitalNonAssocSemiring α] {A B C : Tensor4 α}
    (hm : A.m = B.n) (hCn : C.n = A.n) (hCm : C.m = B.m)
    {b h : ℕ} (hbb : b < A.b) (hhh : h < A.h)
    {t i j k : ℕ} (hk : k < A.m) (r c : ℕ) :
    (tmStep A B t i j k C).data b h r c =
      if i ≤ r ∧ r < min (i + t) A.n ∧ j ≤ c ∧ c < min (j + t) B.m then
        C.data b h r c + ∑ x in Finset.Ico k (min (k + t) A.m), A.data b h r x * B.data b h x c
      else C.data b h r c := by
  by_cases hcond : i ≤ r ∧ r < min (i + t) A.n ∧ j ≤ c ∧ c < min (j + t) B.m
  · have hcopy := hcond
    obtain ⟨hir, hrn, hjc, hcm⟩ := hcond
    have hrA : r < A.n := lt_of_lt_of_le hrn (min_le_right _ _)
    have hcB : c < B.m := lt_of_lt_of_le hcm (min_le_right _ _)
    have hminIA : min i A.n = i := by omega
    have hminJB : min j B.m = j := by omega
    have hminK : min k A.m = k := by omega
    have hminKB : min k B.n = k := by rw [← hm]; omega
    rw [if_pos hcopy]
    simp only [tmStep, tmMul, Tensor4.slice34]
    rw [hCn, hCm, hminIA, hminJB]
    rw [if_pos ⟨hir, hrn, hjc, hcm⟩]
    have hbr : r - i < min (i + t) A.n - i := by omega
    have hbc : c - j < min (j + t) B.m - j := by omega
    simp only [bidx_of_lt hbb, bidx_of_lt hhh, bidx_of_lt hbr, bidx_of_lt hbc,
      hminIA, hminJB, hminK, hminKB, Nat.add_sub_cancel' hir, Nat.add_sub_cancel' hjc]
    rw [Finset.sum_Ico_eq_sum_range]
  · simp only [tmStep]
    rw [if_neg ?hc, if_neg hcond]
    case hc =>
      intro hcond'
      obtain ⟨h1, h2, h3, h4⟩ := hcond'
      rw [hCn] at h1 h2
      rw [hCm] at h3 h4
      exact hcond ⟨by omega, by omega, by omega, by omega⟩

theorem foldl_data_add {α : Type} [AddCommMonoid α] (P : Tensor4 α → Prop)
    (step : Tensor4 α → ℕ → Tensor4 α) (δ : ℕ → α) (b h r c : ℕ) :
    ∀ (l : List ℕ),
      (∀ C x, P C → x ∈ l → (step C x).data b h r c = C.data b h r c + δ x) →
      (∀ C x, P C → x ∈ l → P (step C x)) →
      ∀ C, P C → (l.foldl step C).data b h r c = C.data b h r c + (l.map δ).sum
  | [], _, _, C, _ => by simp
  | x :: l, hstep, hP, C, hC => by
    rw [List.foldl_cons, List.map_cons, List.sum_cons,
      foldl_data_add P step δ b h r c l
        (fun C y hCy hy => hstep C y hCy (List.mem_cons_of_mem x hy))
        (fun C y hCy hy => hP C y hCy (List.mem_cons_of_mem x hy))
        (step C x) (hP C x hC (List.mem_cons_self x l)),
      hstep C x hC (List.mem_cons_self x l), add_assoc]

theorem foldl_data_once {α : Type} [AddCommMonoid α] (P : Tensor4 α → Prop)
    (step : Tensor4 α → ℕ → Tensor4 α) (Q : ℕ → Prop) [DecidablePred Q] (δ : α)
    (b h r c : ℕ) :
    ∀ (l : List ℕ),
      (∀ C x, P C → x ∈ l →
        (step C x).data b h r c = C.data b h r c + if Q x then δ else 0) →
      (∀ C x, P C → x ∈ l → P (step C x)) →
      l.Nodup → (∀ x ∈ l, Q x → ∀ y ∈ l, Q y → x = y) →
      ∀ C, P C →
        (l.foldl step C).data b h r c = C.data b h r c + if (∃ x ∈ l, Q x) then δ else 0
  | [], _, _, _, _, C, _ => by simp
  | x :: l, hstep, hP, hnd, huq, C, hC => by
    have htail := foldl_data_once P step Q δ b h r c l
      (fun C y hCy hy => hstep C y hCy (List.mem_cons_of_mem x hy))
      (fun C y hCy hy => hP C y hCy (List.mem_cons_of_mem x hy))
      (List.Nodup.of_cons hnd)
      (fun a ha hQa b' hb' hQb' =>
        huq a (List.mem_cons_of_mem x ha) hQa b' (List.mem_cons_of_mem x hb') hQb')
      (step C x) (hP C x hC (List.mem_cons_self x l))
    rw [List.foldl_cons, htail, hstep C x hC (List.mem_cons_self x l)]
    by_cases hQx : Q x
    · have hnone : ¬ ∃ y ∈ l, Q y := by
        rintro ⟨y, hy, hQy⟩
        have : x = y := huq x (List.mem_cons_self x l) hQx y (List.mem_cons_of_mem x hy) hQy
        exact (List.nodup_cons.1 hnd).1 (this ▸ hy)
      have hsome : ∃ y ∈ x :: l, Q y := ⟨x, List.mem_cons_self x l, hQx⟩
      rw [if_pos hQx, if_neg hnone, if_pos hsome, add_zero]
    · have hiff : (∃ y ∈ l, Q y) ↔ (∃ y ∈ x :: l, Q y) := by
        constructor
        · rintro ⟨y, hy, hQy⟩
          exact ⟨y, List.mem_cons_of_mem x hy, hQy⟩
        · rintro ⟨y, hy, hQy⟩
          rcases List.mem_cons.1 hy with rfl | hy'
          · exact absurd hQy hQx
          · exact ⟨y, hy', hQy⟩
      rw [if_neg hQx, add_zero]
      by_cases hex : ∃ y ∈ l, Q y
      · rw [if_pos hex, if_pos (hiff.1 hex)]
      · rw [if_neg hex, if_neg (fun hx => hex (hiff.2 hx))]

theorem foldl_preserve {σ ι : Type} (P : σ → Prop) (step : σ → ι → σ)
    (h : ∀ s x, P s → P (step s x)) : ∀ (l : List ι) (s : σ), P s → P (l.foldl step s)
  | [], _, hs => hs
  | x :: l, s, hs => foldl_preserve P step h l (step s x) (h s x hs)

theorem tiled_matmul_eq_tmFold {α : Type} [NonUnitalNonAssocSemiring α]
    {A B : Tensor4 α} (hb : A.b = B.b) (hh : A.h = B.h) (hm : A.m = B.n)
    {ts : ℤ} (ht : 0 < ts) :
    tiled_matmul A B ts = .ok (tmFold A B ts.toNat) := by
  have hK : ∀ i j (C : Tensor4 α),
      (C.b = A.b ∧ C.h = A.h ∧ C.n = A.n ∧ C.m = B.m) →
      (tileStarts A.m ts.toNat).foldlM (fun C k => do
          let T ← (A.slice34 i (i + ts.toNat) k (k + ts.toNat)).matmul
            (B.slice34 k (k + ts.toNat) j (j + ts.toNat))
          addInto C i j ts.toNat T) C
        = .ok ((tileStarts A.m ts.toNat).foldl (fun C k => tmStep A B ts.toNat i j k C) C)
      ∧ ((tileStarts A.m ts.toNat).foldl (fun C k => tmStep A B ts.toNat i j k C) C).b = A.b
        ∧ ((tileStarts A.m ts.toNat).foldl (fun C k => tmStep A B ts.toNat i j k C) C).h = A.h
        ∧ ((tileStarts A.m ts.toNat).foldl (fun C k => tmStep A B ts.toNat i j k C) C).n = A.n
        ∧ ((tileStarts A.m ts.toNat).foldl (fun C k => tmStep A B ts.toNat i j k C) C).m = B.m := by
    intro i j C hC
    exact foldlM_ok (fun C : Tensor4 α => C.b = A.b ∧ C.h = A.h ∧ C.n = A.n ∧ C.m = B.m) _
      (fun C k => tmStep A B ts.toNat i j k C)
      (fun C k hC => body_ok hb hh hm hC.1 hC.2.1 hC.2.2.1 hC.2.2.2 ts.toNat i j k)
      (fun C k hC => hC) (tileStarts A.m ts.toNat) C hC
  have hJ : ∀ i (C : Tensor4 α),
      (C.b = A.b ∧ C.h = A.h ∧ C.n = A.n ∧ C.m = B.m) →
      (tileStarts B.m ts.toNat).foldlM (fun C j =>
          (tileStarts A.m ts.toNat).foldlM (fun C k => do
            let T ← (A.slice34 i (i + ts.toNat) k (k + ts.toNat)).matmul
              (B.slice34 k (k + ts.toNat) j (j + ts.toNat))
            addInto C i j ts.toNat T) C) C
        = .ok ((tileStarts B.m ts.toNat).foldl (fun C j =>
            (tileStarts A.m ts.toNat).foldl (fun C k => tmStep A B ts.toNat i j k C) C) C)
      ∧ (((tileStarts B.m ts.toNat).foldl (fun C j =>
            (tileStarts A.m ts.toNat).foldl (fun C k => tmStep A B ts.toNat i j k C) C) C).b = A.b
        ∧ ((tileStarts B.m ts.toNat).foldl (fun C j =>
            (tileStarts A.m ts.toNat).foldl (fun C k => tmStep A B ts.toNat i j k C) C) C).h = A.h
        ∧ ((tileStarts B.m ts.toNat).foldl (fun C j =>
            (tileStarts A.m ts.toNat).foldl (fun C k => tmStep A B ts.toNat i j k C) C) C).n = A.n
        ∧ ((tileStarts B.m ts.toNat).foldl (fun C j =>
            (tileStarts A.m ts.toNat).foldl (fun C k => tmStep A B ts.toNat i j k C) C) C).m = B.m) := by
    intro i C hC
    exact foldlM_ok (fun C : Tensor4 α => C.b = A.b ∧ C.h = A.h ∧ C.n = A.n ∧ C.m = B.m) _
      (fun C j => (tileStarts A.m ts.toNat).foldl
        (fun C k => tmStep A B ts.toNat i j k C) C)
      (fun C j hC => (hK i j C hC).1) (fun C j hC => (hK i j C hC).2)
      (tileStarts B.m ts.toNat) C hC
  have hI := foldlM_ok (fun C : Tensor4 α => C.b = A.b ∧ C.h = A.h ∧ C.n = A.n ∧ C.m = B.m)
    (fun C i => (tileStarts B.m ts.toNat).foldlM (fun C j =>
        (tileStarts A.m ts.toNat).foldlM (fun C k => do
          let T ← (A.slice34 i (i + ts.toNat) k (k + ts.toNat)).matmul
            (B.slice34 k (k + ts.toNat) j (j + ts.toNat))
          addInto C i j ts.toNat T) C) C)
    (fun C i => (tileStarts B.m ts.toNat).foldl (fun C j =>
        (tileStarts A.m ts.toNat).foldl (fun C k => tmStep A B ts.toNat i j k C) C) C)
    (fun C i hC => (hJ i C hC).1) (fun C i hC => (hJ i C hC).2)
    (tileStarts A.n ts.toNat) (Tensor4.zeros A.b A.h A.n B.m) ⟨rfl, rfl, rfl, rfl⟩
  show (do
    let iL ← pyRange0 A.n ts
    let jL ← pyRange0 B.m ts
    let kL ← pyRange0 A.m ts
    iL.foldlM (fun C i =>
      jL.foldlM (fun C j =>
        kL.foldlM (fun C k => do
          let T ← (A.slice34 i (i + ts.toNat) k (k + ts.toNat)).matmul
            (B.slice34 k (k + ts.toNat) j (j + ts.toNat))
          addInto C i j ts.toNat T) C) C) (Tensor4.zeros A.b A.h A.n B.m) : Except PyErr (Tensor4 α))
    = .ok (tmFold A B ts.toNat)
  simp only [pyRange0_pos ht, except_ok_bind]
  exact hI.1

theorem tmFold_dims {α : Type} [NonUnitalNonAssocSemiring α] (A B : Tensor4 α) (t : ℕ) :
    (tmFold A B t).b = A.b ∧ (tmFold A B t).h = A.h ∧
    (tmFold A B t).n = A.n ∧ (tmFold A B t).m = B.m := by
  refine foldl_preserve
    (fun C : Tensor4 α => C.b = A.b ∧ C.h = A.h ∧ C.n = A.n ∧ C.m = B.m)
    (fun C i => (tileStarts B.m t).foldl (fun C j =>
      (tileStarts A.m t).foldl (fun C k => tmStep A B t i j k C) C) C)
    (fun C i hC => ?_) (tileStarts A.n t) (Tensor4.zeros A.b A.h A.n B.m)
    ⟨rfl, rfl, rfl, rfl⟩
  exact foldl_preserve
    (fun C : Tensor4 α => C.b = A.b ∧ C.h = A.h ∧ C.n = A.n ∧ C.m = B.m)
    (fun C j => (tileStarts A.m t).foldl (fun C k => tmStep A B t i j k C) C)
    (fun C j hC => foldl_preserve
      (fun C : Tensor4 α => C.b = A.b ∧ C.h = A.h ∧ C.n = A.n ∧ C.m = B.m)
      (fun C k => tmStep A B t i j k C) (fun C k hC => hC)
      (tileStarts A.m t) C hC)
    (tileStarts B.m t) C hC

theorem tmFold_data {α : Type} [NonUnitalNonAssocSemiring α] {A B : Tensor4 α}
    (hm : A.m = B.n) {t : ℕ} (ht : 0 < t)
    {b h r c : ℕ} (hbb : b < A.b) (hhh : h < A.h) (hr : r < A.n) (hc : c < B.m) :
    (tmFold A B t).data b h r c = ∑ x in Finset.range A.m, A.data b h r x * B.data b h x c := by
  have hKentry : ∀ i j (C : Tensor4 α), C.n = A.n → C.m = B.m →
      ((tileStarts A.m t).foldl (fun C k => tmStep A B t i j k C) C).data b h r c
      = C.data b h r c +
        (if i ≤ r ∧ r < min (i + t) A.n ∧ j ≤ c ∧ c < min (j + t) B.m
          then ∑ x in Finset.range A.m, A.data b h r x * B.data b h x c else 0) := by
    intro i j C hCn hCm
    by_cases hin : i ≤ r ∧ r < min (i + t) A.n ∧ j ≤ c ∧ c < min (j + t) B.m
    · rw [if_pos hin, ← tileSum_eq ht A.m (fun x => A.data b h r x * B.data b h x c)]
      exact foldl_data_add (fun C : Tensor4 α => C.n = A.n ∧ C.m = B.m)
        (fun C k => tmStep A B t i j k C)
        (fun k => ∑ x in Finset.Ico k (min (k + t) A.m), A.data b h r x * B.data b h x c)
        b h r c (tileStarts A.m t)
        (fun C k hC hk => by
          obtain ⟨q, rfl, hlt⟩ := (mem_tileStarts ht).1 hk
          rw [tmStep_data hm hC.1 hC.2 hbb hhh hlt r c, if_pos hin])
        (fun C k hC hk => hC) C ⟨hCn, hCm⟩
    · rw [if_neg hin, add_zero]
      have h0 := foldl_data_add (fun C : Tensor4 α => C.n = A.n ∧ C.m = B.m)
        (fun C k => tmStep A B t i j k C)
        (fun _ => (0 : α)) b h r c (tileStarts A.m t)
        (fun C k hC hk => by
          obtain ⟨q, rfl, hlt⟩ := (mem_tileStarts ht).1 hk
          rw [tmStep_data hm hC.1 hC.2 hbb hhh hlt r c, if_neg hin, add_zero])
        (fun C k hC hk => hC) C ⟨hCn, hCm⟩
      simpa using h0
  have hJentry : ∀ i (C : Tensor4 α), C.n = A.n → C.m = B.m →
      ((tileStarts B.m t).foldl (fun C j =>
          (tileStarts A.m t).foldl (fun C k => tmStep A B t i j k C) C) C).data b h r c
      = C.data b h r c +
        (if i ≤ r ∧ r < min (i + t) A.n
          then ∑ x in Finset.range A.m, A.data b h r x * B.data b h x c else 0) := by
    intro i C hCn hCm
    have hstep : ∀ (C : Tensor4 α) j, (C.n = A.n ∧ C.m = B.m) → j ∈ tileStarts B.m t →
        ((tileStarts A.m t).foldl (fun C k => tmStep A B t i j k C) C).data b h r c
        = C.data b h r c + (if j ≤ c ∧ c < j + t then
            (if i ≤ r ∧ r < min (i + t) A.n
              then ∑ x in Finset.range A.m, A.data b h r x * B.data b h x c else 0) else 0) := by
      intro C j hC hj
      rw [hKentry i j C hC.1 hC.2]
      congr 1
      by_cases hQ : j ≤ c ∧ c < j + t
      · by_cases hI : i ≤ r ∧ r < min (i + t) A.n
        · rw [if_pos ⟨hI.1, hI.2, hQ.1, by omega⟩, if_pos hQ, if_pos hI]
        · rw [if_neg (by intro hx; exact hI ⟨hx.1, hx.2.1⟩), if_pos hQ, if_neg hI]
      · rw [if_neg (by intro hx; exact hQ ⟨hx.2.2.1, by omega⟩), if_neg hQ]
    have hcover := tileStarts_cover ht hc
    have hex : ∃ j ∈ tileStarts B.m t, j ≤ c ∧ c < j + t :=
      ⟨c / t * t, hcover.1, hcover.2.1, hcover.2.2⟩
    rw [foldl_data_once (fun C : Tensor4 α => C.n = A.n ∧ C.m = B.m)
      (fun C j => (tileStarts A.m t).foldl (fun C k => tmStep A B t i j k C) C)
      (fun j => j ≤ c ∧ c < j + t)
      (if i ≤ r ∧ r < min (i + t) A.n
        then ∑ x in Finset.range A.m, A.data b h r x * B.data b h x c else 0)
      b h r c (tileStarts B.m t) hstep
      (fun C j hC hj => foldl_preserve (fun C : Tensor4 α => C.n = A.n ∧ C.m = B.m)
        (fun C k => tmStep A B t i j k C) (fun C k hC => hC) (tileStarts A.m t) C hC)
      (tileStarts_nodup ht B.m)
      (fun x hx hQx y hy hQy => tileStarts_uniq ht hx hy hQx.1 hQx.2 hQy.1 hQy.2)
      C ⟨hCn, hCm⟩, if_pos hex]
  have hcoverI := tileStarts_cover ht hr
  have hexI : ∃ i ∈ tileStarts A.n t, i ≤ r ∧ r < i + t :=
    ⟨r / t * t, hcoverI.1, hcoverI.2.1, hcoverI.2.2⟩
  have hstepI : ∀ (C : Tensor4 α) i, (C.n = A.n ∧ C.m = B.m) → i ∈ tileStarts A.n t →
      ((tileStarts B.m t).foldl (fun C j =>
          (tileStarts A.m t).foldl (fun C k => tmStep A B t i j k C) C) C).data b h r c
      = C.data b h r c + (if i ≤ r ∧ r < i + t then
          ∑ x in Finset.range A.m, A.data b h r x * B.data b h x c else 0) := by
    intro C i hC hi
    rw [hJentry i C hC.1 hC.2]
    congr 1
    by_cases hQ : i ≤ r ∧ r < i + t
    · rw [if_pos ⟨hQ.1, by omega⟩, if_pos hQ]
    · rw [if_neg (by intro hx; exact hQ ⟨hx.1, by omega⟩), if_neg hQ]
  have hfin := foldl_data_once (fun C : Tensor4 α => C.n = A.n ∧ C.m = B.m)
    (fun C i => (tileStarts B.m t).foldl (fun C j =>
        (tileStarts A.m t).foldl (fun C k => tmStep A B t i j k C) C) C)
    (fun i => i ≤ r ∧ r < i + t)
    (∑ x in Finset.range A.m, A.data b h r x * B.data b h x c)
    b h r c (tileStarts A.n t) hstepI
    (fun C i hC hi => foldl_preserve (fun C : Tensor4 α => C.n = A.n ∧ C.m = B.m)
      (fun C j => (tileStarts A.m t).foldl (fun C k => tmStep A B t i j k C) C)
      (fun C j hC => foldl_preserve (fun C : Tensor4 α => C.n = A.n ∧ C.m = B.m)
        (fun C k => tmStep A B t i j k C) (fun C k hC => hC) (tileStarts A.m t) C hC)
      (tileStarts B.m t) C hC)
    (tileStarts_nodup ht A.n)
    (fun x hx hQx y hy hQy => tileStarts_uniq ht hx hy hQx.1 hQx.2 hQy.1 hQy.2)
    (Tensor4.zeros A.b A.h A.n B.m) ⟨rfl, rfl⟩
  rw [tmFold, hfin, if_pos hexI]
  show 0 + _ = _
  rw [zero_add]

theorem matmul_ok {α : Type} [NonUnitalNonAssocSemiring α] {A B : Tensor4 α}
    (hb : A.b = B.b) (hh : A.h = B.h) (hm : A.m = B.n) :
    ∃ D, A.matmul B = .ok D ∧ D.b = A.b ∧ D.h = A.h ∧ D.n = A.n ∧ D.m = B.m ∧
      ∀ b h r c, b < A.b → h < A.h →
        D.data b h r c = ∑ x in Finset.range A.m, A.data b h r x * B.data b h x c := by
  have hval : A.matmul B = .ok ⟨A.b, A.h, A.n, B.m, fun b h r c =>
      ∑ x in Finset.range A.m, A.data (bidx A.b b) (bidx A.h h) r x *
        B.data (bidx A.b b) (bidx A.h h) x c⟩ := by
    unfold Tensor4.matmul
    rw [← hb, ← hh, bcDim_self, bcDim_self]
    dsimp only
    rw [if_pos hm]
  refine ⟨_, hval, rfl, rfl, rfl, rfl, fun b h r c hbb hhh => ?_⟩
  simp only [bidx_of_lt hbb, bidx_of_lt hhh]

/-! ## Claim theorems for the kernel -/

/-- C1: for all rank-4 tensors `A : (B,H,N,M)` and `B_ : (B,H,M,P)` and
every positive `tile_size` (also when it does not divide an axis or exceeds
it), `tiled_matmul A B_ tile_size` succeeds and equals the dense batched
product `torch.matmul A B_`: same shape `(B,H,N,P)` and identical entries
at every in-range index (exact equality in the idealised arithmetic, hence
within any floating-point tolerance). -/
theorem tiled_matmul_equals_dense (A B : Tensor4 ℚ) (ts : ℤ)
    (hb : A.b = B.b) (hh : A.h = B.h) (hm : A.m = B.n) (ht : 0 < ts) :
    ∃ C D, tiled_matmul A B ts = .ok C ∧ A.matmul B = .ok D ∧
      C.b = A.b ∧ C.h = A.h ∧ C.n = A.n ∧ C.m = B.m ∧
      D.b = A.b ∧ D.h = A.h ∧ D.n = A.n ∧ D.m = B.m ∧
      ∀ b h r c, b < A.b → h < A.h → r < A.n → c < B.m →
        C.data b h r c = D.data b h r c := by
  obtain ⟨D, hD, hDb, hDh, hDn, hDm, hDdata⟩ := matmul_ok hb hh hm
  obtain ⟨d1, d2, d3, d4⟩ := tmFold_dims A B ts.toNat
  have ht' : 0 < ts.toNat := by omega
  refine ⟨tmFold A B ts.toNat, D, tiled_matmul_eq_tmFold hb hh hm ht, hD,
    d1, d2, d3, d4, hDb, hDh, hDn, hDm, fun b h r c hbb hhh hr hc => ?_⟩
  rw [tmFold_data hm ht' hbb hhh hr hc, hDdata b h r c hbb hhh]

/-- Witness for C1 at a concrete input: `A : (1,1,3,4)`, `B_ : (1,1,4,5)`
with entries `A[r,c] = r + c`, `B_[r,c] = r * c`, and `tile_size = 3`, which
divides none of the axes 3, 4, 5. -/
theorem tiled_matmul_equals_dense_witness :
    ∃ C D,
      tiled_matmul (⟨1, 1, 3, 4, fun _ _ r c => (r : ℚ) + c⟩ : Tensor4 ℚ)
          ⟨1, 1, 4, 5, fun _ _ r c => (r : ℚ) * c⟩ 3 = .ok C ∧
      Tensor4.matmul ⟨1, 1, 3, 4, fun _ _ r c => (r : ℚ) + c⟩
          ⟨1, 1, 4, 5, fun _ _ r c => (r : ℚ) * c⟩ = .ok D ∧
      C.b = 1 ∧ C.h = 1 ∧ C.n = 3 ∧ C.m = 5 ∧
      D.b = 1 ∧ D.h = 1 ∧ D.n = 3 ∧ D.m = 5 ∧
      ∀ b h r c, b < 1 → h < 1 → r < 3 → c < 5 →
        C.data b h r c = D.data b h r c :=
  tiled_matmul_equals_dense ⟨1, 1, 3, 4, fun _ _ r c => (r : ℚ) + c⟩
    ⟨1, 1, 4, 5, fun _ _ r c => (r : ℚ) * c⟩ 3 rfl rfl rfl (by decide)

/-- C2: for a fixed compatible pair `A, B_`, any two positive tile sizes
(in particular `1` and any size at least `max N M P`) give results that
agree on every in-range entry and have the same shape. -/
theorem tiled_matmul_tile_invariant (A B : Tensor4 ℚ) (ts1 ts2 : ℤ)
    (hb : A.b = B.b) (hh : A.h = B.h) (hm : A.m = B.n)
    (ht1 : 0 < ts1) (ht2 : 0 < ts2) :
    ∃ C1 C2, tiled_matmul A B ts1 = .ok C1 ∧ tiled_matmul A B ts2 = .ok C2 ∧
      C1.b = C2.b ∧ C1.h = C2.h ∧ C1.n = C2.n ∧ C1.m = C2.m ∧
      ∀ b h r c, b < A.b → h < A.h → r < A.n → c < B.m →
        C1.data b h r c = C2.data b h r c := by
  obtain ⟨e1, e2, e3, e4⟩ := tmFold_dims A B ts1.toNat
  obtain ⟨f1, f2, f3, f4⟩ := tmFold_dims A B ts2.toNat
  refine ⟨tmFold A B ts1.toNat, tmFold A B ts2.toNat,
    tiled_matmul_eq_tmFold hb hh hm ht1, tiled_matmul_eq_tmFold hb hh hm ht2,
    e1.trans f1.symm, e2.trans f2.symm, e3.trans f3.symm, e4.trans f4.symm,
    fun b h r c hbb hhh hr hc => ?_⟩
  rw [tmFold_data hm (by omega) hbb hhh hr hc, tmFold_data hm (by omega) hbb hhh hr hc]

/-- Witness for C2 at a concrete input: the `(1,1,3,4) x (1,1,4,5)` pair of
the C1 witness with tile sizes `1` and `7 = max N M P + 2` (a size larger
than every axis, degenerating to one dense call). -/
theorem tiled_matmul_tile_invariant_witness :
    ∃ C1 C2,
      tiled_matmul (⟨1, 1, 3, 4, fun _ _ r c => (r : ℚ) + c⟩ : Tensor4 ℚ)
          ⟨1, 1, 4, 5, fun _ _ r c => (r : ℚ) * c⟩ 1 = .ok C1 ∧
      tiled_matmul (⟨1, 1, 3, 4, fun _ _ r c => (r : ℚ) + c⟩ : Tensor4 ℚ)
          ⟨1, 1, 4, 5, fun _ _ r c => (r : ℚ) * c⟩ 7 = .ok C2 ∧
      C1.b = C2.b ∧ C1.h = C2.h ∧ C1.n = C2.n ∧ C1.m = C2.m ∧
      ∀ b h r c, b < 1 → h < 1 → r < 3 → c < 5 →
        C1.data b h r c = C2.data b h r c :=
  tiled_matmul_tile_invariant ⟨1, 1, 3, 4, fun _ _ r c => (r : ℚ) + c⟩
    ⟨1, 1, 4, 5, fun _ _ r c => (r : ℚ) * c⟩ 1 7 rfl rfl rfl (by decide) (by decide)

theorem foldlM_keepAB {α ι : Type}
    (g : Tensor4 α → Tensor4 α → Tensor4 α → ι → Except PyErr (Tensor4 α)) :
    ∀ (l : List ι) (s0 : KernelState α),
      l.foldlM (fun s x => (g s.A s.B s.C x).map
          (fun C => (⟨s.A, s.B, C⟩ : KernelState α))) s0
      = (l.foldlM (fun C x => g s0.A s0.B C x) s0.C).map
          (fun C => (⟨s0.A, s0.B, C⟩ : KernelState α))
  | [], s0 => rfl
  | x :: l, s0 => by
    rw [List.foldlM_cons, List.foldlM_cons]
    cases hg : g s0.A s0.B s0.C x with
    | error e => rfl
    | ok C' =>
      show ((Except.ok C').map (fun C => (⟨s0.A, s0.B, C⟩ : KernelState α)) >>= _) = _
      rw [show (Except.ok C').map (fun C => (⟨s0.A, s0.B, C⟩ : KernelState α))
          = Except.ok ⟨s0.A, s0.B, C'⟩ from rfl, except_ok_bind, except_ok_bind]
      exact foldlM_keepAB g l ⟨s0.A, s0.B, C'⟩

theorem foldlM_congr {σ ι : Type} {f g : σ → ι → Except PyErr σ}
    (h : ∀ s x, f s x = g s x) : ∀ (l : List ι) (s : σ), l.foldlM f s = l.foldlM g s
  | [], _ => rfl
  | x :: l, s => by
    rw [List.foldlM_cons, List.foldlM_cons, h s x]
    cases g s x with
    | error e => rfl
    | ok s' =>
      rw [except_ok_bind, except_ok_bind]
      exact foldlM_congr h l s'

theorem tiled_matmulS_eq {α : Type} [NonUnitalNonAssocSemiring α]
    (A B : Tensor4 α) (ts : ℤ) :
    tiled_matmulS A B ts = (tiled_matmul A B ts).map
      (fun C => (⟨A, B, C⟩ : KernelState α)) := by
  unfold tiled_matmulS tiled_matmul
  cases pyRange0 A.n ts with
  | error e => rfl
  | ok iL =>
    cases pyRange0 B.m ts with
    | error e => rfl
    | ok jL =>
      cases pyRange0 A.m ts with
      | error e => rfl
      | ok kL =>
        simp only [except_ok_bind]
        have hk : ∀ (i j : ℕ) (s : KernelState α),
            kL.foldlM (fun s k =>
                (((s.A.slice34 i (i + ts.toNat) k (k + ts.toNat)).matmul
                    (s.B.slice34 k (k + ts.toNat) j (j + ts.toNat))) >>=
                  addInto s.C i j ts.toNat).map
                  (fun C => (⟨s.A, s.B, C⟩ : KernelState α))) s
            = (kL.foldlM (fun C k =>
                ((s.A.slice34 i (i + ts.toNat) k (k + ts.toNat)).matmul
                    (s.B.slice34 k (k + ts.toNat) j (j + ts.toNat))) >>=
                  addInto C i j ts.toNat) s.C).map
                (fun C => (⟨s.A, s.B, C⟩ : KernelState α)) :=
          fun i j s => foldlM_keepAB
            (fun Av Bv Cv k =>
              ((Av.slice34 i (i + ts.toNat) k (k + ts.toNat)).matmul
                  (Bv.slice34 k (k + ts.toNat) j (j + ts.toNat))) >>=
                addInto Cv i j ts.toNat) kL s
        have hj : ∀ (i : ℕ) (s : KernelState α),
            jL.foldlM (fun s j =>
                kL.foldlM (fun s k =>
                  (((s.A.slice34 i (i + ts.toNat) k (k + ts.toNat)).matmul
                      (s.B.slice34 k (k + ts.toNat) j (j + ts.toNat))) >>=
                    addInto s.C i j ts.toNat).map
                    (fun C => (⟨s.A, s.B, C⟩ : KernelState α))) s) s
            = (jL.foldlM (fun C j =>
                kL.foldlM (fun C k =>
                  ((s.A.slice34 i (i + ts.toNat) k (k + ts.toNat)).matmul
                      (s.B.slice34 k (k + ts.toNat) j (j + ts.toNat))) >>=
                    addInto C i j ts.toNat) C) s.C).map
                (fun C => (⟨s.A, s.B, C⟩ : KernelState α)) := by
          intro i s
          rw [foldlM_congr (fun s j => hk i j s) jL s]
          exact foldlM_keepAB
            (fun Av Bv Cv j =>
              kL.foldlM (fun C k =>
                ((Av.slice34 i (i + ts.toNat) k (k + ts.toNat)).matmul
                    (Bv.slice34 k (k + ts.toNat) j (j + ts.toNat))) >>=
                  addInto C i j ts.toNat) Cv) jL s
        rw [foldlM_congr (fun s i => hj i s) iL]
        exact foldlM_keepAB
          (fun Av Bv Cv i =>
            jL.foldlM (fun C j =>
              kL.foldlM (fun C k =>
                ((Av.slice34 i (i + ts.toNat) k (k + ts.toNat)).matmul
                    (Bv.slice34 k (k + ts.toNat) j (j + ts.toNat))) >>=
                  addInto C i j ts.toNat) C) Cv) iL ⟨A, B, Tensor4.zeros A.b A.h A.n B.m⟩

/-- C9: `tiled_matmul` never writes to its inputs.  Running the kernel with
the whole visible heap (both operands plus the freshly allocated,
zero-initialised accumulator) threaded as explicit state gives back the two
operands unchanged in every outcome, and the only produced tensor is the
accumulator that `tiled_matmul` returns, which starts as
`Tensor4.zeros A.b A.h A.n B.m`. -/
theorem tiled_matmul_preserves_inputs (A B : Tensor4 ℚ) (ts : ℤ) :
    tiled_matmulS A B ts = (tiled_matmul A B ts).map
      (fun C => (⟨A, B, C⟩ : KernelState ℚ)) :=
  tiled_matmulS_eq A B ts

/-- C10: a strictly negative `tile_size` raises nothing and returns the
all-zero `(B, H, N, P)` output (all three `range` loops are empty), while
`tile_size = 0` raises the host `range` zero-step `ValueError`; the two
non-positive cases therefore produce different outcomes. -/
theorem tiled_matmul_negative_vs_zero_tile (A B : Tensor4 ℚ) (ts : ℤ) (hneg : ts < 0) :
    tiled_matmul A B ts = .ok (Tensor4.zeros A.b A.h A.n B.m) ∧
    tiled_matmul A B 0 = .error .rangeZeroStep ∧
    tiled_matmul A B ts ≠ tiled_matmul A B 0 := by
  have h1 : tiled_matmul A B ts = .ok (Tensor4.zeros A.b A.h A.n B.m) := by
    unfold tiled_matmul
    simp only [pyRange0_neg hneg, except_ok_bind]
    rfl
  have h2 : tiled_matmul A B 0 = .error .rangeZeroStep := by
    unfold tiled_matmul
    rw [pyRange0_zero]
    rfl
  refine ⟨h1, h2, ?_⟩
  rw [h1, h2]
  intro hcontra
  exact Except.noConfusion hcontra

/-- Witness for C10 at a concrete input: `(1,1,1,1)` tensors of ones with
`tile_size = -1` and `tile_size = 0`. -/
theorem tiled_matmul_negative_vs_zero_tile_witness :
    tiled_matmul (⟨1, 1, 1, 1, fun _ _ _ _ => (1 : ℚ)⟩ : Tensor4 ℚ)
        ⟨1, 1, 1, 1, fun _ _ _ _ => 1⟩ (-1) = .ok (Tensor4.zeros 1 1 1 1) ∧
    tiled_matmul (⟨1, 1, 1, 1, fun _ _ _ _ => (1 : ℚ)⟩ : Tensor4 ℚ)
        ⟨1, 1, 1, 1, fun _ _ _ _ => 1⟩ 0 = .error .rangeZeroStep := by
  have h := tiled_matmul_negative_vs_zero_tile ⟨1, 1, 1, 1, fun _ _ _ _ => (1 : ℚ)⟩
    ⟨1, 1, 1, 1, fun _ _ _ _ => 1⟩ (-1) (by decide)
  exact ⟨h.1, h.2.1⟩

/-- Counterexample to C3: the kernel performs no validation of the leading
`(B, H)` extents.  With `A : (2,1,1,1)` and `B_ : (1,1,1,1)` the leading
batch extents differ, yet the call succeeds (torch broadcasts the batch
axis of extent 1), returning a result instead of any eager `ShapeMismatch`
failure. -/
theorem tiled_matmul_no_eager_shape_check_cex :
    (⟨2, 1, 1, 1, fun _ _ _ _ => (1 : ℚ)⟩ : Tensor4 ℚ).b ≠
      (⟨1, 1, 1, 1, fun _ _ _ _ => (1 : ℚ)⟩ : Tensor4 ℚ).b ∧
    ∃ C, tiled_matmul (⟨2, 1, 1, 1, fun _ _ _ _ => (1 : ℚ)⟩ : Tensor4 ℚ)
        ⟨1, 1, 1, 1, fun _ _ _ _ => 1⟩ 1 = .ok C :=
  ⟨by decide, ⟨_, rfl⟩⟩

/-- C3 as amended: the kernel validates nothing up front.  A mismatched
reduction axis surfaces as the host `torch.matmul` shape error during the
tiled iteration (after the output buffer is allocated, and for small tiles
after partial accumulation), not as the design document's `ShapeMismatch`;
for the document's example `A : (2,4,8,8)`, `B_ : (2,4,6,8)` this happens
at `tile_size = 64` (first iteration) and at `tile_size = 2` (at the
boundary tile `k = 6`). -/
theorem tiled_matmul_reduction_mismatch_host_error :
    tiled_matmul (⟨2, 4, 8, 8, fun _ _ _ _ => (1 : ℚ)⟩ : Tensor4 ℚ)
        ⟨2, 4, 6, 8, fun _ _ _ _ => 1⟩ 64 = .error .matmulShape ∧
    tiled_matmul (⟨2, 4, 8, 8, fun _ _ _ _ => (1 : ℚ)⟩ : Tensor4 ℚ)
        ⟨2, 4, 6, 8, fun _ _ _ _ => 1⟩ 2 = .error .matmulShape ∧
    PyErr.matmulShape ≠ PyErr.shapeMismatch :=
  ⟨rfl, rfl, by decide⟩

/-- Counterexample to C4: `tile_size = -1 ≤ 0` raises nothing at all — the
call returns the zero output, so no `InvalidConfiguration` (nor any other
error) occurs for this non-positive tile size. -/
theorem tiled_matmul_nonpositive_no_invalid_config_cex :
    tiled_matmul (⟨1, 1, 1, 1, fun _ _ _ _ => (1 : ℚ)⟩ : Tensor4 ℚ)
        ⟨1, 1, 1, 1, fun _ _ _ _ => 1⟩ (-1) = .ok (Tensor4.zeros 1 1 1 1) :=
  rfl

/-- C4 as amended: there is no `InvalidConfiguration` validation of
`tile_size`.  For every input pair, `tile_size = 0` fails with the host
`range()` zero-step `ValueError`, while the negative `tile_size = -1`
silently returns the zero-initialised output. -/
theorem tiled_matmul_nonpositive_tile_behaviour (A B : Tensor4 ℚ) :
    tiled_matmul A B 0 = .error .rangeZeroStep ∧
    tiled_matmul A B (-1) = .ok (Tensor4.zeros A.b A.h A.n B.m) := by
  constructor
  · unfold tiled_matmul
    rw [pyRange0_zero]
    rfl
  · unfold tiled_matmul
    simp only [pyRange0_neg (by norm_num : (-1 : ℤ) < 0), except_ok_bind]
    rfl

/-! ## Helper layer: orchestrator stages -/

theorem construct_ok_inv {hidden heads : ℕ} {tsz : ℤ}
    {wq : ℕ → ℕ → ℝ} {bq : ℕ → ℝ} {wk : ℕ → ℕ → ℝ} {bk : ℕ → ℝ}
    {wv : ℕ → ℕ → ℝ} {bv : ℕ → ℝ} {wo : ℕ → ℕ → ℝ} {bo : ℕ → ℝ}
    {M : TiledAttention}
    (hM : TiledAttention.construct hidden heads tsz wq bq wk bk wv bv wo bo = .ok M) :
    hidden / heads ≠ 0 ∧
    M = { hidden_size := hidden, num_attention_heads := heads, tile_size := tsz,
          query := ⟨hidden, hidden, wq, bq⟩, key := ⟨hidden, hidden, wk, bk⟩,
          value := ⟨hidden, hidden, wv, bv⟩, out := ⟨hidden, hidden, wo, bo⟩,
          scale := 1 / Real.sqrt ((hidden / heads : ℕ) : ℝ) } := by
  unfold TiledAttention.construct at hM
  split_ifs at hM with h0
  exact ⟨h0, (Except.ok.inj hM).symm⟩

theorem apply3_fields_ok (inF outF : ℕ) (w : ℕ → ℕ → ℝ) (bias : ℕ → ℝ)
    (x : Tensor3 ℝ) (hx : x.m = inF) :
    Linear.apply3 ⟨inF, outF, w, bias⟩ x = .ok ⟨x.b, x.n, outF, fun b s j =>
      (∑ i in Finset.range inF, x.data b s i * w j i) + bias j⟩ := by
  unfold Linear.apply3
  dsimp only
  rw [if_pos hx]

theorem view4_ok {α : Type} (x : Tensor3 α) (d1 d2 d3 d4 : ℕ)
    (hsz : x.b * x.n * x.m = d1 * d2 * d3 * d4) :
    view4 x d1 d2 d3 d4 = .ok ⟨d1, d2, d3, d4, fun i1 i2 i3 i4 =>
      x.data ((((i1 * d2 + i2) * d3 + i3) * d4 + i4) / (x.n * x.m))
        ((((i1 * d2 + i2) * d3 + i3) * d4 + i4) / x.m % x.n)
        ((((i1 * d2 + i2) * d3 + i3) * d4 + i4) % x.m)⟩ := by
  unfold view4
  rw [if_pos hsz]

theorem view3_ok {α : Type} (t : Tensor4 α) (d1 d2 d3 : ℕ)
    (hsz : t.b * t.h * t.n * t.m = d1 * d2 * d3) :
    view3 t d1 d2 d3 = .ok ⟨d1, d2, d3, fun i1 i2 i3 =>
      t.data (((i1 * d2 + i2) * d3 + i3) / (t.h * t.n * t.m))
        (((i1 * d2 + i2) * d3 + i3) / (t.n * t.m) % t.h)
        (((i1 * d2 + i2) * d3 + i3) / t.m % t.n)
        (((i1 * d2 + i2) * d3 + i3) % t.m)⟩ := by
  unfold view3
  rw [if_pos hsz]

/-- Row-stochasticity of the softmax model: with a non-empty last axis,
every row sums to exactly 1 and every entry is non-negative. -/
theorem softmax4_row_stochastic (S : Tensor4 ℝ) (hm : 0 < S.m) (b h r : ℕ) :
    (∑ c in Finset.range S.m, (softmax4 S).data b h r c) = 1 ∧
    ∀ c, 0 ≤ (softmax4 S).data b h r c := by
  have hpos : 0 < ∑ x in Finset.range S.m, Real.exp (S.data b h r x) :=
    Finset.sum_pos (fun x _ => Real.exp_pos _) (by simpa using Finset.nonempty_range_iff.2 (by omega))
  constructor
  · unfold softmax4
    dsimp only
    rw [← Finset.sum_div, div_self (ne_of_gt hpos)]
  · intro c
    unfold softmax4
    dsimp only
    positivity

theorem apply3_ok {L : Linear} {x : Tensor3 ℝ} (hx : x.m = L.inF) :
    ∃ y, L.apply3 x = .ok y ∧ y.b = x.b ∧ y.n = x.n ∧ y.m = L.outF ∧
      ∀ b s j, y.data b s j = (∑ i in Finset.range L.inF, x.data b s i * L.w j i) + L.bias j := by
  simp only [Linear.apply3]
  rw [if_pos hx]
  exact ⟨_, rfl, rfl, rfl, rfl, fun b s j => rfl⟩

theorem view4_ok' {α : Type} {x : Tensor3 α} {d1 d2 d3 d4 : ℕ}
    (hsz : x.b * x.n * x.m = d1 * d2 * d3 * d4) :
    ∃ y, view4 x d1 d2 d3 d4 = .ok y ∧ y.b = d1 ∧ y.h = d2 ∧ y.n = d3 ∧ y.m = d4 ∧
      ∀ i1 i2 i3 i4, y.data i1 i2 i3 i4
        = x.data ((((i1 * d2 + i2) * d3 + i3) * d4 + i4) / (x.n * x.m))
            ((((i1 * d2 + i2) * d3 + i3) * d4 + i4) / x.m % x.n)
            ((((i1 * d2 + i2) * d3 + i3) * d4 + i4) % x.m) := by
  simp only [view4]
  rw [if_pos hsz]
  exact ⟨_, rfl, rfl, rfl, rfl, rfl, fun i1 i2 i3 i4 => rfl⟩

theorem merge_unrank {b s f nn hh dd : ℕ} (hs : s < nn) (hf : f < hh * dd)
    (hh0 : 0 < hh) (hd0 : 0 < dd) :
    ((b * nn + s) * (hh * dd) + f) / (nn * hh * dd) = b ∧
    ((b * nn + s) * (hh * dd) + f) / (hh * dd) % nn = s ∧
    ((b * nn + s) * (hh * dd) + f) / dd % hh = f / dd ∧
    ((b * nn + s) * (hh * dd) + f) % dd = f % dd := by
  have hM0 : 0 < hh * dd := Nat.mul_pos hh0 hd0
  have hR : s * (hh * dd) + f < nn * (hh * dd) := by
    calc s * (hh * dd) + f < s * (hh * dd) + hh * dd := by omega
    _ = (s + 1) * (hh * dd) := by ring
    _ ≤ nn * (hh * dd) := Nat.mul_le_mul_right _ (by omega)
  have hn0 : 0 < nn := by omega
  refine ⟨?_, ?_, ?_, ?_⟩
  · have hflat : (b * nn + s) * (hh * dd) + f
        = (s * (hh * dd) + f) + (nn * (hh * dd)) * b := by ring
    rw [Nat.mul_assoc nn hh dd, hflat,
      Nat.add_mul_div_left _ _ (Nat.mul_pos hn0 hM0),
      Nat.div_eq_of_lt hR, Nat.zero_add]
  · have hflat : (b * nn + s) * (hh * dd) + f = f + (hh * dd) * (b * nn + s) := by ring
    rw [hflat, Nat.add_mul_div_left _ _ hM0, Nat.div_eq_of_lt hf, Nat.zero_add]
    have : b * nn + s = s + nn * b := by ring
    rw [this, Nat.add_mul_mod_self_left, Nat.mod_eq_of_lt hs]
  · have hflat : (b * nn + s) * (hh * dd) + f = f + dd * ((b * nn + s) * hh) := by ring
    rw [hflat, Nat.add_mul_div_left _ _ hd0, Nat.add_mul_mod_self_right,
      Nat.mod_eq_of_lt ((Nat.div_lt_iff_lt_mul hd0).2 hf)]
  · have hflat : (b * nn + s) * (hh * dd) + f = f + dd * ((b * nn + s) * hh) := by ring
    rw [hflat, Nat.add_mul_mod_self_left]

theorem qkv_entry {x y : Tensor3 ℝ} {yv : Tensor4 ℝ} {L : Linear} {heads d : ℕ}
    (hy : ∀ b s j, y.data b s j
      = (∑ i in Finset.range L.inF, x.data b s i * L.w j i) + L.bias j)
    (hyn : y.n = x.n) (hym : y.m = heads * d)
    (hyv : ∀ i1 i2 i3 i4, yv.data i1 i2 i3 i4 = y.data
      ((((i1 * x.n + i2) * heads + i3) * d + i4) / (y.n * y.m))
      ((((i1 * x.n + i2) * heads + i3) * d + i4) / y.m % y.n)
      ((((i1 * x.n + i2) * heads + i3) * d + i4) % y.m))
    {b hh s dH : ℕ} (hs : s < x.n) (hhh : hh < heads) (hdH : dH < d) :
    yv.transpose12.data b hh s dH
      = (∑ i in Finset.range L.inF, x.data b s i * L.w (hh * d + dH) i)
        + L.bias (hh * d + dH) := by
  have hR : hh * d + dH < heads * d := by
    calc hh * d + dH < hh * d + d := by omega
    _ = (hh + 1) * d := by ring
    _ ≤ heads * d := Nat.mul_le_mul_right _ (by omega)
  have hflat : ((b * x.n + s) * heads + hh) * d + dH
      = (b * x.n + s) * (heads * d) + (hh * d + dH) := by ring
  obtain ⟨u1, u2, -, -⟩ := merge_unrank (b := b) hs hR (by omega) (by omega)
  have u3 : ((b * x.n + s) * (heads * d) + (hh * d + dH)) % (heads * d)
      = hh * d + dH := by
    rw [show (b * x.n + s) * (heads * d) + (hh * d + dH)
        = (hh * d + dH) + (heads * d) * (b * x.n + s) from by ring,
      Nat.add_mul_mod_self_left, Nat.mod_eq_of_lt hR]
  rw [show yv.transpose12.data b hh s dH = yv.data b s hh dH from rfl,
    hyv b s hh dH, hyn, hym, hflat, ← Nat.mul_assoc x.n heads d, u1, u2, u3]
  exact hy b s (hh * d + dH)

theorem forwardQKV_ok {hidden heads : ℕ} {tsz : ℤ}
    {wq : ℕ → ℕ → ℝ} {bq : ℕ → ℝ} {wk : ℕ → ℕ → ℝ} {bk : ℕ → ℝ}
    {wv : ℕ → ℕ → ℝ} {bv : ℕ → ℝ} {wo : ℕ → ℕ → ℝ} {bo : ℕ → ℝ}
    {M : TiledAttention} {x : Tensor3 ℝ}
    (hM : TiledAttention.construct hidden heads tsz wq bq wk bk wv bv wo bo = .ok M)
    (hx : x.m = hidden) (hdvd : heads ∣ hidden) :
    ∃ q4 k4 v4, M.forwardQKV x = .ok (q4, k4, v4) ∧
      q4.b = x.b ∧ q4.h = heads ∧ q4.n = x.n ∧ q4.m = hidden / heads ∧
      k4.b = x.b ∧ k4.h = heads ∧ k4.n = x.n ∧ k4.m = hidden / heads ∧
      v4.b = x.b ∧ v4.h = heads ∧ v4.n = x.n ∧ v4.m = hidden / heads ∧
      (∀ b hh s dH, s < x.n → hh < heads → dH < hidden / heads →
        q4.data b hh s dH = (∑ i in Finset.range hidden,
          x.data b s i * wq (hh * (hidden / heads) + dH) i)
          + bq (hh * (hidden / heads) + dH)) ∧
      (∀ b hh s dH, s < x.n → hh < heads → dH < hidden / heads →
        k4.data b hh s dH = (∑ i in Finset.range hidden,
          x.data b s i * wk (hh * (hidden / heads) + dH) i)
          + bk (hh * (hidden / heads) + dH)) ∧
      (∀ b hh s dH, s < x.n → hh < heads → dH < hidden / heads →
        v4.data b hh s dH = (∑ i in Finset.range hidden,
          x.data b s i * wv (hh * (hidden / heads) + dH) i)
          + bv (hh * (hidden / heads) + dH)) := by
  obtain ⟨h0, rfl⟩ := construct_ok_inv hM
  obtain ⟨q, hq, hqb, hqn, hqm, hqd⟩ := apply3_ok (L := ⟨hidden, hidden, wq, bq⟩) (x := x) hx
  obtain ⟨k, hk, hkb, hkn, hkm, hkd⟩ := apply3_ok (L := ⟨hidden, hidden, wk, bk⟩) (x := x) hx
  obtain ⟨v, hv, hvb, hvn, hvm, hvd⟩ := apply3_ok (L := ⟨hidden, hidden, wv, bv⟩) (x := x) hx
  have hsz : ∀ y : Tensor3 ℝ, y.b = x.b → y.n = x.n → y.m = hidden →
      y.b * y.n * y.m = x.b * x.n * heads * (x.m / heads) := by
    intro y hb hn hm
    rw [hb, hn, hm, hx, Nat.mul_assoc (x.b * x.n) heads (hidden / heads),
      Nat.mul_div_cancel' hdvd]
  obtain ⟨qv, hqv, hqvb, hqvh, hqvn, hqvm, hqvd⟩ := view4_ok' (hsz q hqb hqn hqm)
  obtain ⟨kv, hkv, hkvb, hkvh, hkvn, hkvm, hkvd⟩ := view4_ok' (hsz k hkb hkn hkm)
  obtain ⟨vv, hvv, hvvb, hvvh, hvvn, hvvm, hvvd⟩ := view4_ok' (hsz v hvb hvn hvm)
  have hym : ∀ y : Tensor3 ℝ, y.m = hidden → y.m = heads * (x.m / heads) := by
    intro y hm
    rw [hm, hx]
    exact (Nat.mul_div_cancel' hdvd).symm
  refine ⟨qv.transpose12, kv.transpose12, vv.transpose12, ?_,
    hqvb, hqvn, hqvh, by rw [show qv.transpose12.m = qv.m from rfl, hqvm, hx],
    hkvb, hkvn, hkvh, by rw [show kv.transpose12.m = kv.m from rfl, hkvm, hx],
    hvvb, hvvn, hvvh, by rw [show vv.transpose12.m = vv.m from rfl, hvvm, hx],
    ?_, ?_, ?_⟩
  · unfold TiledAttention.forwardQKV
    dsimp only
    rw [hq, except_ok_bind, hk, except_ok_bind, hv, except_ok_bind,
      hqv, except_ok_bind, hkv, except_ok_bind, hvv, except_ok_bind]
    rfl
  · intro b hh s dH hs hhh hdH
    have := qkv_entry (b := b) hqd hqn (hym q hqm) hqvd hs hhh
      (show dH < x.m / heads by rw [hx]; exact hdH)
    rw [hx] at this
    exact this
  · intro b hh s dH hs hhh hdH
    have := qkv_entry (b := b) hkd hkn (hym k hkm) hkvd hs hhh
      (show dH < x.m / heads by rw [hx]; exact hdH)
    rw [hx] at this
    exact this
  · intro b hh s dH hs hhh hdH
    have := qkv_entry (b := b) hvd hvn (hym v hvm) hvvd hs hhh
      (show dH < x.m / heads by rw [hx]; exact hdH)
    rw [hx] at this
    exact this

theorem forwardWeights_ok {hidden heads : ℕ} {tsz : ℤ}
    {wq : ℕ → ℕ → ℝ} {bq : ℕ → ℝ} {wk : ℕ → ℕ → ℝ} {bk : ℕ → ℝ}
    {wv : ℕ → ℕ → ℝ} {bv : ℕ → ℝ} {wo : ℕ → ℕ → ℝ} {bo : ℕ → ℝ}
    {M : TiledAttention} {x : Tensor3 ℝ}
    (hM : TiledAttention.construct hidden heads tsz wq bq wk bk wv bv wo bo = .ok M)
    (hx : x.m = hidden) (hdvd : heads ∣ hidden) (hts : 0 < tsz) :
    ∃ S w, M.forwardWeights x = .ok w ∧ w = softmax4 S ∧
      S.b = x.b ∧ S.h = heads ∧ S.n = x.n ∧ S.m = x.n := by
  obtain ⟨q4, k4, v4, hqkv, hq1, hq2, hq3, hq4, hk1, hk2, hk3, hk4, hv1, hv2, hv3, hv4, -, -, -⟩ :=
    forwardQKV_ok hM hx hdvd
  obtain ⟨h0, rfl⟩ := construct_ok_inv hM
  have hmm := tiled_matmul_eq_tmFold
    (show q4.b = k4.transpose34.b from hq1.trans hk1.symm)
    (show q4.h = k4.transpose34.h from hq2.trans hk2.symm)
    (show q4.m = k4.transpose34.n from hq4.trans hk4.symm) hts
  obtain ⟨t1, t2, t3, t4⟩ := tmFold_dims q4 k4.transpose34 tsz.toNat
  refine ⟨(tmFold q4 k4.transpose34 tsz.toNat).smulR (1 / Real.sqrt ((hidden / heads : ℕ) : ℝ)),
    _, ?_, rfl, ?_, ?_, ?_, ?_⟩
  · unfold TiledAttention.forwardWeights
    rw [hqkv, except_ok_bind]
    dsimp only
    rw [hmm, except_ok_bind]
    rfl
  · exact t1.trans hq1
  · exact t2.trans hq2
  · exact t3.trans hq3
  · exact t4.trans (show k4.transpose34.m = x.n from hk3)

theorem forwardContext_ok {hidden heads : ℕ} {tsz : ℤ}
    {wq : ℕ → ℕ → ℝ} {bq : ℕ → ℝ} {wk : ℕ → ℕ → ℝ} {bk : ℕ → ℝ}
    {wv : ℕ → ℕ → ℝ} {bv : ℕ → ℝ} {wo : ℕ → ℕ → ℝ} {bo : ℕ → ℝ}
    {M : TiledAttention} {x : Tensor3 ℝ}
    (hM : TiledAttention.construct hidden heads tsz wq bq wk bk wv bv wo bo = .ok M)
    (hx : x.m = hidden) (hdvd : heads ∣ hidden) (hts : 0 < tsz) :
    ∃ q4 k4 v4 S w ctx, M.forwardQKV x = .ok (q4, k4, v4) ∧
      M.forwardWeights x = .ok w ∧ w = softmax4 S ∧
      S.b = x.b ∧ S.h = heads ∧ S.n = x.n ∧ S.m = x.n ∧
      M.forwardContext x = .ok ctx ∧
      ctx.b = x.b ∧ ctx.h = heads ∧ ctx.n = x.n ∧ ctx.m = hidden / heads ∧
      ∀ b hh r c, b < x.b → hh < heads → r < x.n → c < hidden / heads →
        ctx.data b hh r c = ∑ y in Finset.range x.n,
          w.data b hh r y * v4.data b hh y c := by
  obtain ⟨q4, k4, v4, hqkv, hq1, hq2, hq3, hq4, hk1, hk2, hk3, hk4, hv1, hv2, hv3, hv4,
    -, -, -⟩ := forwardQKV_ok hM hx hdvd
  obtain ⟨S, w, hw, hwS, hS1, hS2, hS3, hS4⟩ := forwardWeights_ok hM hx hdvd hts
  have hw1 : w.b = x.b := by rw [hwS]; exact hS1
  have hw2 : w.h = heads := by rw [hwS]; exact hS2
  have hw3 : w.n = x.n := by rw [hwS]; exact hS3
  have hw4 : w.m = x.n := by rw [hwS]; exact hS4
  obtain ⟨h0, rfl⟩ := construct_ok_inv hM
  have hmm := tiled_matmul_eq_tmFold
    (show w.b = v4.b from hw1.trans hv1.symm)
    (show w.h = v4.h from hw2.trans hv2.symm)
    (show w.m = v4.n from hw4.trans hv3.symm) hts
  obtain ⟨t1, t2, t3, t4⟩ := tmFold_dims w v4 tsz.toNat
  refine ⟨q4, k4, v4, S, w, tmFold w v4 tsz.toNat, hqkv, hw, hwS, hS1, hS2, hS3, hS4,
    ?_, t1.trans hw1, t2.trans hw2, t3.trans hw3, t4.trans hv4, ?_⟩
  · unfold TiledAttention.forwardContext
    rw [hqkv, except_ok_bind]
    dsimp only
    rw [hw, except_ok_bind]
    exact hmm
  · intro b hh r c hb hhh hr hc
    have := tmFold_data (show w.m = v4.n from hw4.trans hv3.symm)
      (show 0 < tsz.toNat by omega)
      (show b < w.b by omega) (show hh < w.h by omega)
      (show r < w.n by omega) (show c < v4.m by omega)
    rw [this, hw4]

theorem forwardMerged_ok {hidden heads : ℕ} {tsz : ℤ}
    {wq : ℕ → ℕ → ℝ} {bq : ℕ → ℝ} {wk : ℕ → ℕ → ℝ} {bk : ℕ → ℝ}
    {wv : ℕ → ℕ → ℝ} {bv : ℕ → ℝ} {wo : ℕ → ℕ → ℝ} {bo : ℕ → ℝ}
    {M : TiledAttention} {x : Tensor3 ℝ}
    (hM : TiledAttention.construct hidden heads tsz wq bq wk bk wv bv wo bo = .ok M)
    (hx : x.m = hidden) (hdvd : heads ∣ hidden) (hts : 0 < tsz) :
    ∃ ctx mg, M.forwardContext x = .ok ctx ∧ M.forwardMerged x = .ok mg ∧
      ctx.b = x.b ∧ ctx.h = heads ∧ ctx.n = x.n ∧ ctx.m = hidden / heads ∧
      mg.b = x.b ∧ mg.n = x.n ∧ mg.m = x.m ∧
      ∀ b s f, b < x.b → s < x.n → f < x.m →
        mg.data b s f = ctx.data b (f / (hidden / heads)) s (f % (hidden / heads)) := by
  obtain ⟨q4, k4, v4, S, w, ctx, hqkv, hw, hwS, hS1, hS2, hS3, hS4, hctx, hc1, hc2, hc3,
    hc4, -⟩ := forwardContext_ok hM hx hdvd hts
  obtain ⟨h0, hMrec⟩ := construct_ok_inv hM
  have hheads : 0 < heads := by
    by_contra hcon
    have : heads = 0 := by omega
    rw [this, Nat.div_zero] at h0
    exact h0 rfl
  have hd0 : 0 < hidden / heads := Nat.pos_of_ne_zero h0
  have hmd : heads * (hidden / heads) = hidden := Nat.mul_div_cancel' hdvd
  have hsz : ctx.transpose12.b * ctx.transpose12.h * ctx.transpose12.n *
      ctx.transpose12.m = x.b * x.n * x.m := by
    show ctx.b * ctx.n * ctx.h * ctx.m = x.b * x.n * x.m
    rw [hc1, hc2, hc3, hc4, hx, Nat.mul_assoc (x.b * x.n) heads (hidden / heads), hmd]
  have hmg : view3 ctx.transpose12 x.b x.n x.m = .ok ⟨x.b, x.n, x.m, fun i1 i2 i3 =>
      ctx.transpose12.data
        (((i1 * x.n + i2) * x.m + i3) / (ctx.transpose12.h * ctx.transpose12.n * ctx.transpose12.m))
        (((i1 * x.n + i2) * x.m + i3) / (ctx.transpose12.n * ctx.transpose12.m) % ctx.transpose12.h)
        (((i1 * x.n + i2) * x.m + i3) / ctx.transpose12.m % ctx.transpose12.n)
        (((i1 * x.n + i2) * x.m + i3) % ctx.transpose12.m)⟩ := by
    unfold view3
    rw [if_pos hsz]
  have hfm : M.forwardMerged x = view3 ctx.transpose12 x.b x.n x.m := by
    unfold TiledAttention.forwardMerged
    rw [hctx, except_ok_bind]
  refine ⟨ctx, _, hctx, hfm.trans hmg, hc1, hc2, hc3, hc4, rfl, rfl, rfl, ?_⟩
  intro b s f hb hs hf
  have hfx : f < heads * (hidden / heads) := by rw [hmd, ← hx]; exact hf
  have hsx : s < x.n := hs
  obtain ⟨u1, u2, u3, u4⟩ := merge_unrank (b := b) hsx hfx hheads hd0
  show ctx.transpose12.data
      (((b * x.n + s) * x.m + f) / (ctx.transpose12.h * ctx.transpose12.n * ctx.transpose12.m))
      (((b * x.n + s) * x.m + f) / (ctx.transpose12.n * ctx.transpose12.m) % ctx.transpose12.h)
      (((b * x.n + s) * x.m + f) / ctx.transpose12.m % ctx.transpose12.n)
      (((b * x.n + s) * x.m + f) % ctx.transpose12.m)
    = ctx.data b (f / (hidden / heads)) s (f % (hidden / heads))
  have e1 : ctx.transpose12.h = x.n := hc3
  have e2 : ctx.transpose12.n = heads := hc2
  have e3 : ctx.transpose12.m = hidden / heads := hc4
  have exm : x.m = heads * (hidden / heads) := by rw [hmd, hx]
  rw [show ctx.transpose12.data = fun a u v z => ctx.data a v u z from rfl]
  dsimp only
  rw [e1, e2, e3, exm]
  rw [u1, u2, u3, u4]

theorem forward_ok {hidden heads : ℕ} {tsz : ℤ}
    {wq : ℕ → ℕ → ℝ} {bq : ℕ → ℝ} {wk : ℕ → ℕ → ℝ} {bk : ℕ → ℝ}
    {wv : ℕ → ℕ → ℝ} {bv : ℕ → ℝ} {wo : ℕ → ℕ → ℝ} {bo : ℕ → ℝ}
    {M : TiledAttention} {x : Tensor3 ℝ}
    (hM : TiledAttention.construct hidden heads tsz wq bq wk bk wv bv wo bo = .ok M)
    (hx : x.m = hidden) (hdvd : heads ∣ hidden) (hts : 0 < tsz) :
    ∃ mg out, M.forwardMerged x = .ok mg ∧ M.forward x = .ok out ∧
      mg.b = x.b ∧ mg.n = x.n ∧ mg.m = x.m ∧
      out.b = x.b ∧ out.n = x.n ∧ out.m = x.m ∧
      ∀ b s j, out.data b s j
        = (∑ i in Finset.range hidden, mg.data b s i * wo j i) + bo j := by
  obtain ⟨ctx, mg, hctx, hmg, hc1, hc2, hc3, hc4, hm1, hm2, hm3, hment⟩ :=
    forwardMerged_ok hM hx hdvd hts
  obtain ⟨h0, rfl⟩ := construct_ok_inv hM
  obtain ⟨out, hout, ho1, ho2, ho3, hodata⟩ :=
    apply3_ok (L := ⟨hidden, hidden, wo, bo⟩) (x := mg) (hm3.trans hx)
  refine ⟨mg, out, hmg, ?_, hm1, hm2, hm3, ho1.trans hm1, ho2.trans hm2,
    ho3.trans hx.symm, hodata⟩
  unfold TiledAttention.forward
  rw [hmg, except_ok_bind]
  dsimp only
  exact hout

/-! ## Claim theorems for the orchestrator -/

/-- Counterexample to C5: with `hidden_size = 10` and `num_attention_heads
= 3` the constructor succeeds — no divisibility validation exists and no
`InvalidConfiguration` is raised — and the mismatch only surfaces when
`forward` runs, as a host `Tensor.view` reshape error, which is not the
design document's `InvalidConfiguration`. -/
theorem orchestrator_no_divisibility_check_cex :
    TiledAttention.construct 10 3 2 zw zb zw zb zw zb zw zb = .ok badModule ∧
    badModule.forward badInput = .error .viewShape ∧
    PyErr.viewShape ≠ PyErr.invalidConfiguration :=
  ⟨rfl, rfl, by decide⟩

/-- C5 as amended: the orchestrator never checks divisibility.  Whenever
`num_attention_heads` does not divide `hidden_size` (with a head count
between 1 and `hidden_size`, so that construction's scale computation does
not hit a zero division), construction succeeds, and `forward` on any
non-empty input of width `hidden_size` fails with the host view reshape
error at the head-split step. -/
theorem orchestrator_mismatch_surfaces_in_forward
    (hidden heads : ℕ) (tsz : ℤ)
    (wq : ℕ → ℕ → ℝ) (bq : ℕ → ℝ) (wk : ℕ → ℕ → ℝ) (bk : ℕ → ℝ)
    (wv : ℕ → ℕ → ℝ) (bv : ℕ → ℝ) (wo : ℕ → ℕ → ℝ) (bo : ℕ → ℝ)
    (x : Tensor3 ℝ)
    (hndvd : ¬ heads ∣ hidden) (hle : heads ≤ hidden) (hh0 : 0 < heads)
    (hx : x.m = hidden) (hb0 : 0 < x.b) (hn0 : 0 < x.n) :
    ∃ M, TiledAttention.construct hidden heads tsz wq bq wk bk wv bv wo bo = .ok M ∧
      M.forward x = .error .viewShape := by
  have h0 : hidden / heads ≠ 0 := by
    have h1 : 1 ≤ hidden / heads := (Nat.one_le_div_iff hh0).2 hle
    omega
  obtain ⟨q, hq, hqb, hqn, hqm, -⟩ := apply3_ok (L := ⟨hidden, hidden, wq, bq⟩) (x := x) hx
  obtain ⟨k, hk, hkb, hkn, hkm, -⟩ := apply3_ok (L := ⟨hidden, hidden, wk, bk⟩) (x := x) hx
  obtain ⟨v, hv, hvb, hvn, hvm, -⟩ := apply3_ok (L := ⟨hidden, hidden, wv, bv⟩) (x := x) hx
  have hguard : ¬ (q.b * q.n * q.m = x.b * x.n * heads * (x.m / heads)) := by
    rw [hqb, hqn, hqm, hx]
    intro hcon
    have h1 : x.b * x.n * hidden = x.b * x.n * (heads * (hidden / heads)) := by
      rw [hcon, Nat.mul_assoc]
    have h2 : hidden = heads * (hidden / heads) :=
      Nat.eq_of_mul_eq_mul_left (Nat.mul_pos hb0 hn0) h1
    exact hndvd ⟨hidden / heads, h2⟩
  have hv4err : view4 q x.b x.n heads (x.m / heads) = .error .viewShape := by
    unfold view4
    rw [if_neg hguard]
  refine ⟨{ hidden_size := hidden, num_attention_heads := heads, tile_size := tsz, query := ⟨hidden, hidden, wq, bq⟩, key := ⟨hidden, hidden, wk, bk⟩, value := ⟨hidden, hidden, wv, bv⟩, out := ⟨hidden, hidden, wo, bo⟩, scale := 1 / Real.sqrt ((hidden / heads : ℕ) : ℝ) }, ?_, ?_⟩
  · unfold TiledAttention.construct
    rw [if_neg h0]
  · have hQKVerr : TiledAttention.forwardQKV
        { hidden_size := hidden, num_attention_heads := heads, tile_size := tsz,
          query := ⟨hidden, hidden, wq, bq⟩, key := ⟨hidden, hidden, wk, bk⟩,
          value := ⟨hidden, hidden, wv, bv⟩, out := ⟨hidden, hidden, wo, bo⟩,
          scale := 1 / Real.sqrt ((hidden / heads : ℕ) : ℝ) } x
        = .error .viewShape := by
      unfold TiledAttention.forwardQKV
      dsimp only
      rw [hq, except_ok_bind, hk, except_ok_bind, hv, except_ok_bind, hv4err]
      rfl
    have hCerr : TiledAttention.forwardContext
        { hidden_size := hidden, num_attention_heads := heads, tile_size := tsz,
          query := ⟨hidden, hidden, wq, bq⟩, key := ⟨hidden, hidden, wk, bk⟩,
          value := ⟨hidden, hidden, wv, bv⟩, out := ⟨hidden, hidden, wo, bo⟩,
          scale := 1 / Real.sqrt ((hidden / heads : ℕ) : ℝ) } x
        = .error .viewShape := by
      unfold TiledAttention.forwardContext
      rw [hQKVerr]
      rfl
    have hMerr : TiledAttention.forwardMerged
        { hidden_size := hidden, num_attention_heads := heads, tile_size := tsz,
          query := ⟨hidden, hidden, wq, bq⟩, key := ⟨hidden, hidden, wk, bk⟩,
          value := ⟨hidden, hidden, wv, bv⟩, out := ⟨hidden, hidden, wo, bo⟩,
          scale := 1 / Real.sqrt ((hidden / heads : ℕ) : ℝ) } x
        = .error .viewShape := by
      unfold TiledAttention.forwardMerged
      rw [hCerr]
      rfl
    unfold TiledAttention.forward
    rw [hMerr]
    rfl

/-- Witness for the amended C5 at the design document's example: hidden
size 10, head count 3, on a `(1,1,10)` input. -/
theorem orchestrator_mismatch_surfaces_in_forward_witness :
    ∃ M, TiledAttention.construct 10 3 2 zw zb zw zb zw zb zw zb = .ok M ∧
      M.forward badInput = .error .viewShape :=
  orchestrator_mismatch_surfaces_in_forward 10 3 2 zw zb zw zb zw zb zw zb badInput
    (by decide) (by decide) (by decide) rfl (by decide) (by decide)

/-- Counterexample to C6: `TiledAttention.forward` takes a single raw
`hidden_states` tensor, projects it with its own q/k/v layers, and applies
its own output projection after merging heads.  For `cexModule` (whose
output projection doubles its input) on the all-ones `(1,1,1)` input, the
head-merged context entry is `1` but the value `forward` returns is `2`:
the result is not the head-merged context. -/
theorem forward_applies_output_projection_cex :
    ∃ mg out, cexModule.forwardMerged cexInput = .ok mg ∧
      cexModule.forward cexInput = .ok out ∧
      mg.data 0 0 0 = 1 ∧ out.data 0 0 0 = 2 ∧ out.data 0 0 0 ≠ mg.data 0 0 0 := by
  have hMc : TiledAttention.construct 1 1 1 onesW zb onesW zb onesW zb twosW zb
      = .ok cexModule := rfl
  obtain ⟨q4, k4, v4, S, w, ctx, hqkv, hw, hwS, hS1, hS2, hS3, hS4, hctx, hc1, hc2, hc3,
    hc4, hcent⟩ := forwardContext_ok (x := cexInput) hMc rfl (by decide) (by decide)
  obtain ⟨q4', k4', v4', hqkv', _, _, _, _, _, _, _, _, _, _, _, _, -, -, hve⟩ :=
    forwardQKV_ok (x := cexInput) hMc rfl (by decide)
  obtain ⟨ctx2, mg, hctx2, hmg, _, _, _, _, hm1, hm2, hm3, hment⟩ :=
    forwardMerged_ok (x := cexInput) hMc rfl (by decide) (by decide)
  obtain ⟨mg', out, hmg', hout, _, _, _, _, _, _, hodata⟩ :=
    forward_ok (x := cexInput) hMc rfl (by decide) (by decide)
  have hctxeq : ctx2 = ctx := Except.ok.inj (hctx2.symm.trans hctx)
  have hmgeq : mg' = mg := Except.ok.inj (hmg'.symm.trans hmg)
  have hv4eq : v4' = v4 := by
    have htrip : (q4, k4, v4) = (q4', k4', v4') := Except.ok.inj (hqkv.symm.trans hqkv')
    exact (congrArg (fun p => p.2.2) htrip).symm
  have hw00 : w.data 0 0 0 0 = 1 := by
    rw [hwS]
    show Real.exp (S.data 0 0 0 0) / ∑ c in Finset.range S.m, Real.exp (S.data 0 0 0 c) = 1
    rw [show S.m = 1 from hS4, Finset.sum_range_one, div_self (Real.exp_ne_zero _)]
  have hv400 : v4.data 0 0 0 0 = 1 := by
    rw [← hv4eq, hve 0 0 0 0 (by decide) (by decide) (by decide)]
    show (∑ i in Finset.range 1, cexInput.data 0 0 i * onesW (0 * (1 / 1) + 0) i)
      + zb (0 * (1 / 1) + 0) = 1
    rw [Finset.sum_range_one]
    show (1 : ℝ) * 1 + 0 = 1
    norm_num
  have hctx00 : ctx.data 0 0 0 0 = 1 := by
    rw [hcent 0 0 0 0 (by decide) (by decide) (by decide) (by decide)]
    show (∑ y in Finset.range 1, w.data 0 0 0 y * v4.data 0 0 y 0) = 1
    rw [Finset.sum_range_one, hw00, hv400]
    norm_num
  have hmg00 : mg.data 0 0 0 = 1 := by
    have := hment 0 0 0 (by decide) (by decide) (by decide)
    rw [hctxeq] at this
    rw [this]
    show ctx.data 0 (0 / (1 / 1)) 0 (0 % (1 / 1)) = 1
    norm_num [hctx00]
  have hout00 : out.data 0 0 0 = 2 := by
    rw [hodata 0 0 0]
    show (∑ i in Finset.range 1, mg'.data 0 0 i * twosW 0 i) + zb 0 = 2
    rw [Finset.sum_range_one, hmgeq, hmg00]
    show (1 : ℝ) * 2 + 0 = 2
    norm_num
  exact ⟨mg, out, hmg, hout, hmg00, hout00, by rw [hmg00, hout00]; norm_num⟩

/-- C6 as amended: the orchestrator's contract does not begin after
projection nor end before the output projection.  `forward` takes one raw
`hidden_states` tensor, applies the module's own query projection (shown
here by the explicit formula of the head-split query in terms of the input
and the module's `wq`/`bq` parameters — `key`/`value` are analogous), and
after head-merging applies the module's own output projection `wo`/`bo` to
produce the result. -/
theorem forward_projects_input_and_output
    (hidden heads : ℕ) (tsz : ℤ)
    (wq : ℕ → ℕ → ℝ) (bq : ℕ → ℝ) (wk : ℕ → ℕ → ℝ) (bk : ℕ → ℝ)
    (wv : ℕ → ℕ → ℝ) (bv : ℕ → ℝ) (wo : ℕ → ℕ → ℝ) (bo : ℕ → ℝ)
    (M : TiledAttention) (x : Tensor3 ℝ)
    (hM : TiledAttention.construct hidden heads tsz wq bq wk bk wv bv wo bo = .ok M)
    (hx : x.m = hidden) (hdvd : heads ∣ hidden) (hts : 0 < tsz) :
    ∃ q4 k4 v4 mg out, M.forwardQKV x = .ok (q4, k4, v4) ∧
      M.forwardMerged x = .ok mg ∧ M.forward x = .ok out ∧
      (∀ b hh s dH, s < x.n → hh < heads → dH < hidden / heads →
        q4.data b hh s dH = (∑ i in Finset.range hidden,
          x.data b s i * wq (hh * (hidden / heads) + dH) i)
          + bq (hh * (hidden / heads) + dH)) ∧
      (∀ b s j, out.data b s j
        = (∑ i in Finset.range hidden, mg.data b s i * wo j i) + bo j) := by
  obtain ⟨q4, k4, v4, hqkv, _, _, _, _, _, _, _, _, _, _, _, _, hqe, -, -⟩ :=
    forwardQKV_ok hM hx hdvd
  obtain ⟨mg, out, hmg, hout, _, _, _, _, _, _, hodata⟩ := forward_ok hM hx hdvd hts
  exact ⟨q4, k4, v4, mg, out, hqkv, hmg, hout, hqe, hodata⟩

/-- Witness for the amended C6 at `demoModule` on the all-zero `(1,1,2)`
input. -/
theorem forward_projects_input_and_output_witness :
    ∃ q4 k4 v4 mg out, demoModule.forwardQKV demoInput = .ok (q4, k4, v4) ∧
      demoModule.forwardMerged demoInput = .ok mg ∧
      demoModule.forward demoInput = .ok out ∧
      (∀ b hh s dH, s < demoInput.n → hh < 1 → dH < 2 / 1 →
        q4.data b hh s dH = (∑ i in Finset.range 2,
          demoInput.data b s i * zw (hh * (2 / 1) + dH) i) + zb (hh * (2 / 1) + dH)) ∧
      (∀ b s j, out.data b s j
        = (∑ i in Finset.range 2, mg.data b s i * zw j i) + zb j) :=
  forward_projects_input_and_output 2 1 1 zw zb zw zb zw zb zw zb demoModule demoInput
    rfl rfl (by decide) (by decide)

/-- C7: for every properly constructed module whose head count divides the
hidden size and every input of matching width (and positive tile size),
`forward` succeeds and its output has shape `(batch, seq_len, hidden_size)`
— the shape of the input.  The head-merged tensor is obtained from the
`(batch, num_heads, seq_len, head_dim)` context exactly by transposing the
head and sequence axes and flattening the last two axes: entry `(b, s, f)`
of the merged tensor is entry `(b, f / head_dim, s, f % head_dim)` of the
context. -/
theorem forward_shape_preservation
    (hidden heads : ℕ) (tsz : ℤ)
    (wq : ℕ → ℕ → ℝ) (bq : ℕ → ℝ) (wk : ℕ → ℕ → ℝ) (bk : ℕ → ℝ)
    (wv : ℕ → ℕ → ℝ) (bv : ℕ → ℝ) (wo : ℕ → ℕ → ℝ) (bo : ℕ → ℝ)
    (M : TiledAttention) (x : Tensor3 ℝ)
    (hM : TiledAttention.construct hidden heads tsz wq bq wk bk wv bv wo bo = .ok M)
    (hx : x.m = hidden) (hdvd : heads ∣ hidden) (hts : 0 < tsz) :
    ∃ ctx mg out, M.forwardContext x = .ok ctx ∧ M.forwardMerged x = .ok mg ∧
      M.forward x = .ok out ∧
      out.b = x.b ∧ out.n = x.n ∧ out.m = x.m ∧
      ctx.b = x.b ∧ ctx.h = heads ∧ ctx.n = x.n ∧ ctx.m = hidden / heads ∧
      mg.b = x.b ∧ mg.n = x.n ∧ mg.m = x.m ∧
      ∀ b s f, b < x.b → s < x.n → f < x.m →
        mg.data b s f = ctx.data b (f / (hidden / heads)) s (f % (hidden / heads)) := by
  obtain ⟨ctx, mg, hctx, hmg, hc1, hc2, hc3, hc4, hm1, hm2, hm3, hment⟩ :=
    forwardMerged_ok hM hx hdvd hts
  obtain ⟨mg', out, hmg', hout, _, _, _, ho1, ho2, ho3, -⟩ := forward_ok hM hx hdvd hts
  have hmgeq : mg' = mg := Except.ok.inj (hmg'.symm.trans hmg)
  exact ⟨ctx, mg, out, hctx, hmg, hout, ho1, ho2, ho3, hc1, hc2, hc3, hc4,
    hm1, hm2, hm3, hment⟩

/-- Witness for C7 at `demoModule` on the all-zero `(1,1,2)` input. -/
theorem forward_shape_preservation_witness :
    ∃ ctx mg out, demoModule.forwardContext demoInput = .ok ctx ∧
      demoModule.forwardMerged demoInput = .ok mg ∧
      demoModule.forward demoInput = .ok out ∧
      out.b = 1 ∧ out.n = 1 ∧ out.m = 2 ∧
      ctx.b = 1 ∧ ctx.h = 1 ∧ ctx.n = 1 ∧ ctx.m = 2 / 1 ∧
      mg.b = 1 ∧ mg.n = 1 ∧ mg.m = 2 ∧
      ∀ b s f, b < 1 → s < 1 → f < 2 →
        mg.data b s f = ctx.data b (f / (2 / 1)) s (f % (2 / 1)) :=
  forward_shape_preservation 2 1 1 zw zb zw zb zw zb zw zb demoModule demoInput
    rfl rfl (by decide) (by decide)

/-- C8: the attention weights the orchestrator produces are row-stochastic:
for every properly constructed module and matching non-empty input, the
softmax stage succeeds and every row of the weights tensor along the last
axis sums to exactly 1 with every entry non-negative (so also within the
document's 1e-5 tolerance). -/
theorem forward_weights_row_stochastic
    (hidden heads : ℕ) (tsz : ℤ)
    (wq : ℕ → ℕ → ℝ) (bq : ℕ → ℝ) (wk : ℕ → ℕ → ℝ) (bk : ℕ → ℝ)
    (wv : ℕ → ℕ → ℝ) (bv : ℕ → ℝ) (wo : ℕ → ℕ → ℝ) (bo : ℕ → ℝ)
    (M : TiledAttention) (x : Tensor3 ℝ)
    (hM : TiledAttention.construct hidden heads tsz wq bq wk bk wv bv wo bo = .ok M)
    (hx : x.m = hidden) (hdvd : heads ∣ hidden) (hts : 0 < tsz) (hn : 0 < x.n) :
    ∃ w, M.forwardWeights x = .ok w ∧
      w.b = x.b ∧ w.h = heads ∧ w.n = x.n ∧ w.m = x.n ∧
      ∀ b h r, (∑ c in Finset.range w.m, w.data b h r c) = 1 ∧
        ∀ c, 0 ≤ w.data b h r c := by
  obtain ⟨S, w, hw, hwS, hS1, hS2, hS3, hS4⟩ := forwardWeights_ok hM hx hdvd hts
  have hm : 0 < S.m := by omega
  refine ⟨w, hw, by rw [hwS]; exact hS1, by rw [hwS]; exact hS2,
    by rw [hwS]; exact hS3, by rw [hwS]; exact hS4, fun b h r => ?_⟩
  rw [hwS]
  exact softmax4_row_stochastic S hm b h r

/-- Witness for C8 at `demoModule` on the all-zero `(1,1,2)` input. -/
theorem forward_weights_row_stochastic_witness :
    ∃ w, demoModule.forwardWeights demoInput = .ok w ∧
      w.b = 1 ∧ w.h = 1 ∧ w.n = 1 ∧ w.m = 1 ∧
      ∀ b h r, (∑ c in Finset.range w.m, w.data b h r c) = 1 ∧
        ∀ c, 0 ≤ w.data b h r c :=
  forward_weights_row_stochastic 2 1 1 zw zb zw zb zw zb zw zb demoModule demoInput
    rfl rfl (by decide) (by decide) (by decide)
